import Mathlib

/-!
Shallow embedding of the blob-storage layers of the bazel-buildbarn
repository: digest validation, the checksum-validating reader of the
integrity (Merkle) adapter, the sharding adapter, the ByteStream
resource-name parsers and write-stream reader, the HTTP remote cache
back end, and the Redis and gRPC CAS relay back ends.
-/

namespace BBB

/-- Canonical gRPC status codes used by the repository. -/
inductive Code where
  | ok
  | invalidArgument
  | notFound
  | internal
  | unknown
  | unimplemented
  | failedPrecondition
  | unavailable
  | deadlineExceeded
  | canceled
  deriving DecidableEq, Repr

/-- A gRPC status error: a code together with a message. -/
structure StatusError where
  code : Code
  msg : String
  deriving DecidableEq, Repr

/-- A remote-execution Digest, as in the proto message: the hash is kept
as its character sequence, the size is a signed 64-bit quantity. -/
structure Digest where
  hash : List Char
  sizeBytes : Int
  deriving DecidableEq, Repr

/-- Character class accepted by validateDigest: the Go code rejects a
character c with (c lt 0 or c gt 9) and (c lt a or c gt f), so the
accepted characters are exactly the lowercase hexadecimal digits. -/
def isLowerHexDigit (c : Char) : Bool :=
  (('0' ≤ c) && (c ≤ '9')) || (('a' ≤ c) && (c ≤ 'f'))

/-- Embeds validateDigest of pkg/blobstore/merkle_blob_access.go.
The recognized-hash-length test stands for util.DigestFormatFromLength,
whose source is not part of the repository snapshot; it is therefore
taken as the parameter `recognized`.  Modelled from the spec: an
unrecognized hash length makes the digest invalid and, per the spec,
invalid digests fail with InvalidArgument. -/
def validateDigest (recognized : Nat → Bool) (d : Digest) : Option StatusError :=
  if !(recognized d.hash.length) then
    some ⟨.invalidArgument, "Unknown digest hash length"⟩
  else
    match d.hash.find? (fun c => !(isLowerHexDigit c)) with
    | some _ => some ⟨.invalidArgument, "Non-hexadecimal character in digest hash"⟩
    | none =>
      if d.sizeBytes < 0 then
        some ⟨.invalidArgument, "Invalid digest size"⟩
      else
        none

/-- Value of a lowercase hexadecimal digit. -/
def hexVal (c : Char) : Nat :=
  if c ≤ '9' then c.toNat - '0'.toNat else c.toNat - 'a'.toNat + 10

/-- Embeds hex.DecodeString on an already validated lowercase-hex string:
consecutive pairs of hex digits become bytes. -/
def hexDecode : List Char → List Nat
  | a :: b :: rest => (hexVal a * 16 + hexVal b) :: hexDecode rest
  | _ => []

/-- The invalidator closure installed on the checksum-validating reader.
In Get it calls Delete on the wrapped store (best effort: the outcome is
only logged), in Put it does nothing. -/
inductive InvAction where
  | deleteWrapped
  | noop
  deriving DecidableEq, Repr

/-- The data with which merkleBlobAccess.Get and merkleBlobAccess.Put
construct a checksumValidatingReader. -/
structure CVConfig where
  expectedChecksum : List Nat
  sizeLeft : Int
  invalidator : InvAction
  errorCode : Code
  deriving DecidableEq, Repr

/-- Embeds merkleBlobAccess.Get: validate the digest (an invalid digest
yields an error reader) and otherwise wrap the underlying stream in a
checksumValidatingReader with error code Internal and an invalidator
that deletes the blob from the wrapped store. -/
def merkleGet (recognized : Nat → Bool) (d : Digest) : Except StatusError CVConfig :=
  match validateDigest recognized d with
  | some e => .error e
  | none => .ok ⟨hexDecode d.hash, d.sizeBytes, .deleteWrapped, .internal⟩

/-- Embeds merkleBlobAccess.Put: validate the digest (on failure the
supplied reader is closed, recorded in the Boolean component, and the
error is returned) and otherwise wrap the supplied reader in a
checksumValidatingReader with error code InvalidArgument and a no-op
invalidator. -/
def merklePut (recognized : Nat → Bool) (d : Digest) : Bool × Except StatusError CVConfig :=
  match validateDigest recognized d with
  | some e => (true, .error e)
  | none => (false, .ok ⟨hexDecode d.hash, d.sizeBytes, .noop, .invalidArgument⟩)

/-- Embeds merkleBlobAccess.Delete: validate the digest, then forward it
to the wrapped store. -/
def merkleDelete (recognized : Nat → Bool) (d : Digest) : Except StatusError Digest :=
  match validateDigest recognized d with
  | some e => .error e
  | none => .ok d

/-- Embeds merkleBlobAccess.FindMissing: validate every digest in order,
returning the first validation error, and otherwise forward the list to
the wrapped store. -/
def merkleFindMissing (recognized : Nat → Bool) (digests : List Digest) : Except StatusError (List Digest) :=
  match digests.findSome? (fun d => validateDigest recognized d) with
  | some e => .error e
  | none => .ok digests

/-- A result of one Read call on the underlying (wrapped) reader, as
seen by checksumValidatingReader.Read: the bytes read plus an optional
error, io.EOF being distinguished. -/
inductive UErr where
  | eof
  | other (m : String)
  deriving DecidableEq, Repr

/-- How a run of reads through the checksum-validating reader ended. -/
inductive CVTerm where
  | eofOk
  | failed (e : StatusError)
  | passedErr (m : String)
  | exhausted
  deriving DecidableEq, Repr

/-- Observable outcome of driving the checksum-validating reader over a
whole underlying stream: the bytes delivered to the consumer, the
terminal event, and whether the invalidator was invoked. -/
structure CVRun where
  delivered : List Nat
  term : CVTerm
  invalidated : Bool
  deriving DecidableEq, Repr

/-- Message of the size-overrun failure of checksumValidatingReader.Read. -/
def longerMsg : String := "Blob is longer than expected"

/-- Message of the truncation failure of checksumValidatingReader.Read. -/
def shorterMsg (n : Int) : String :=
  "Blob is " ++ toString n ++ " bytes shorter than expected"

/-- Message of the checksum-mismatch failure of checksumValidatingReader.Read. -/
def checksumMsg (actual expected : List Nat) : String :=
  "Checksum of blob is " ++ toString actual ++ ", while " ++ toString expected ++ " was expected"

/-- Embeds checksumValidatingReader.Read, iterated over a stream of
underlying read results.  `H` is the hash family selected by the digest
length (partialChecksum), `fed` the bytes already teed into it,
`sizeLeft` the remaining size.  Each underlying read tees its chunk into
the hash; a chunk longer than the remaining size fails with the
size-overrun error and invokes the invalidator; on io.EOF a nonzero
remaining size fails with the truncation error, and otherwise the
finalized hash is compared against the expected checksum; errors other
than io.EOF are passed through. -/
def cvRun (H : List Nat → List Nat) (expected : List Nat) (code : Code) :
    Int → List Nat → List (List Nat × Option UErr) → CVRun
  | _, _, [] => ⟨[], .exhausted, false⟩
  | sizeLeft, fed, (chunk, e) :: rest =>
    if (chunk.length : Int) > sizeLeft then
      ⟨[], .failed ⟨code, longerMsg⟩, true⟩
    else
      match e with
      | some .eof =>
        if sizeLeft - chunk.length ≠ 0 then
          ⟨[], .failed ⟨code, shorterMsg (sizeLeft - chunk.length)⟩, true⟩
        else if H (fed ++ chunk) ≠ expected then
          ⟨[], .failed ⟨code, checksumMsg (H (fed ++ chunk)) expected⟩, true⟩
        else
          ⟨chunk, .eofOk, false⟩
      | some (.other m) => ⟨chunk, .passedErr m, false⟩
      | none =>
        let r := cvRun H expected code (sizeLeft - chunk.length) (fed ++ chunk) rest
        ⟨chunk ++ r.delivered, r.term, r.invalidated⟩

/-- An underlying stream that yields the given chunks one read at a
time and then reports io.EOF. -/
def asReads (chunks : List (List Nat)) : List (List Nat × Option UErr) :=
  chunks.map (fun c => (c, none)) ++ [([], some .eof)]

/-- Concatenation of the chunks of an underlying stream. -/
def catChunks (l : List (List Nat)) : List Nat :=
  l.foldr (fun a b => a ++ b) []

theorem catChunks_nil : catChunks [] = [] := rfl

theorem catChunks_cons (c : List Nat) (cs : List (List Nat)) :
    catChunks (c :: cs) = c ++ catChunks cs := rfl

theorem asReads_nil : asReads [] = [([], some .eof)] := rfl

theorem asReads_cons (c : List Nat) (cs : List (List Nat)) :
    asReads (c :: cs) = (c, none) :: asReads cs := rfl

/-- A stream of exactly the expected total size is delivered whole; at
EOF the finalized hash decides between clean EOF and the checksum
failure. -/
theorem cvRun_exact_run (H : List Nat → List Nat) (expected : List Nat) (code : Code) :
    ∀ (chunks : List (List Nat)) (fed : List Nat),
      cvRun H expected code ((catChunks chunks).length : Int) fed (asReads chunks) =
        if H (fed ++ catChunks chunks) = expected then ⟨catChunks chunks, .eofOk, false⟩
        else ⟨catChunks chunks, .failed ⟨code, checksumMsg (H (fed ++ catChunks chunks)) expected⟩, true⟩ := by
  intro chunks
  induction chunks with
  | nil =>
    intro fed
    by_cases h : H (fed ++ catChunks []) = expected <;>
      simp [asReads_nil, catChunks_nil, cvRun, h]
  | cons c cs ih =>
    intro fed
    have hlen : ¬ ((c.length : Int) > ((catChunks (c :: cs)).length : Int)) := by
      simp [catChunks_cons]
    have hsub : ((catChunks (c :: cs)).length : Int) - (c.length : Int) =
        ((catChunks cs).length : Int) := by
      simp [catChunks_cons]
    rw [asReads_cons]
    simp only [cvRun, if_neg hlen, hsub]
    rw [ih (fed ++ c)]
    by_cases h : H (fed ++ catChunks (c :: cs)) = expected
    · rw [if_pos, if_pos h]
      · simp [catChunks_cons]
      · rw [← h, catChunks_cons, List.append_assoc]
    · rw [if_neg, if_neg h]
      · simp [catChunks_cons, List.append_assoc]

      · rw [catChunks_cons, ← List.append_assoc] at h
        exact h

/-- If the stream carries more bytes than the expected size, the run
fails with the size-overrun error and the invalidator is invoked. -/
theorem cvRun_overrun (H : List Nat → List Nat) (expected : List Nat) (code : Code) :
    ∀ (chunks : List (List Nat)) (fed : List Nat) (size : Int),
      ((catChunks chunks).length : Int) > size →
      (cvRun H expected code size fed (asReads chunks)).term = .failed ⟨code, longerMsg⟩ ∧
      (cvRun H expected code size fed (asReads chunks)).invalidated = true := by
  intro chunks
  induction chunks with
  | nil =>
    intro fed size h
    have hneg : size < 0 := by simpa [catChunks_nil] using h
    simp [asReads_nil, cvRun, hneg]
  | cons c cs ih =>
    intro fed size h
    rw [asReads_cons]
    by_cases hc : ((c.length : Int) > size)
    · simp [cvRun, if_pos hc]
    · have hrec : ((catChunks cs).length : Int) > size - c.length := by
        rw [catChunks_cons] at h
        simp only [List.length_append] at h
        push_cast at h ⊢
        omega
      have := ih (fed ++ c) (size - c.length) hrec
      simp only [cvRun, if_neg hc]
      exact this

/-- If the stream ends before the expected size is reached, the run
fails with the truncation error naming the remaining byte count, and
the invalidator is invoked. -/
theorem cvRun_truncated (H : List Nat → List Nat) (expected : List Nat) (code : Code) :
    ∀ (chunks : List (List Nat)) (fed : List Nat) (size : Int),
      ((catChunks chunks).length : Int) < size →
      (cvRun H expected code size fed (asReads chunks)).term =
        .failed ⟨code, shorterMsg (size - (catChunks chunks).length)⟩ ∧
      (cvRun H expected code size fed (asReads chunks)).invalidated = true := by
  intro chunks
  induction chunks with
  | nil =>
    intro fed size h
    have h0 : (0 : Int) < size := by simpa [catChunks_nil] using h
    have hlt : ¬ (size < 0) := by omega
    have hne : ¬ (size = 0) := by omega
    simp [asReads_nil, cvRun, catChunks_nil, hlt, hne]
  | cons c cs ih =>
    intro fed size h
    rw [asReads_cons]
    have hc : ¬ ((c.length : Int) > size) := by
      rw [catChunks_cons] at h
      simp only [List.length_append] at h
      push_cast at h ⊢
      omega
    have hrec : ((catChunks cs).length : Int) < size - c.length := by
      rw [catChunks_cons] at h
      simp only [List.length_append] at h
      push_cast at h ⊢
      omega
    have harg : (size - c.length) - ((catChunks cs).length : Int) =
        size - ((catChunks (c :: cs)).length : Int) := by
      rw [catChunks_cons]
      simp only [List.length_append]
      push_cast
      ring
    have := ih (fed ++ c) (size - c.length) hrec
    rw [harg] at this
    simp only [cvRun, if_neg hc]
    exact this

/-- Every failure produced by the checksum-validating reader carries the
configured error code and is accompanied by an invalidator invocation. -/
theorem cvRun_failed_code (H : List Nat → List Nat) (expected : List Nat) (code : Code) :
    ∀ (reads : List (List Nat × Option UErr)) (sizeLeft : Int) (fed : List Nat) (e : StatusError),
      (cvRun H expected code sizeLeft fed reads).term = .failed e →
      e.code = code ∧ (cvRun H expected code sizeLeft fed reads).invalidated = true := by
  intro reads
  induction reads with
  | nil =>
    intro sizeLeft fed e h
    simp [cvRun] at h
  | cons p rest ih =>
    obtain ⟨chunk, err⟩ := p
    intro sizeLeft fed e h
    by_cases hc : ((chunk.length : Int) > sizeLeft)
    · simp only [cvRun, if_pos hc] at h ⊢
      cases h
      exact ⟨rfl, trivial⟩
    · simp only [cvRun, if_neg hc] at h ⊢
      match err with
      | some .eof =>
        by_cases h1 : sizeLeft - chunk.length ≠ 0
        · simp only [if_pos h1] at h ⊢
          cases h
          exact ⟨rfl, trivial⟩
        · simp only [if_neg h1] at h ⊢
          by_cases h2 : H (fed ++ chunk) ≠ expected
          · simp only [if_pos h2] at h ⊢
            cases h
            exact ⟨rfl, trivial⟩
          · simp only [if_neg h2] at h ⊢
            cases h
      | some (.other m) => cases h
      | none => exact ih (sizeLeft - chunk.length) (fed ++ chunk) e h

/-- Claim C1: for every read-through of the verifying reader of the
integrity adapter, delivering more than sizeBytes bytes fails the run
with the longer-than-expected error and invokes the invalidator;
reaching EOF with a positive remaining size fails with the
shorter-than-expected error and invokes the invalidator; reaching EOF
with zero remaining compares the finalized hash against the expected
checksum, failing and invalidating on mismatch; and a stream of exactly
sizeBytes bytes whose hash equals the expected checksum passes through
unmodified. -/
theorem merkle_verifying_reader_C1 (H : List Nat → List Nat) (expected : List Nat)
    (code : Code) (chunks : List (List Nat)) (size : Int) :
    (((catChunks chunks).length : Int) = size → H (catChunks chunks) = expected →
      cvRun H expected code size [] (asReads chunks) = ⟨catChunks chunks, .eofOk, false⟩) ∧
    (((catChunks chunks).length : Int) > size →
      (cvRun H expected code size [] (asReads chunks)).term = .failed ⟨code, longerMsg⟩ ∧
      (cvRun H expected code size [] (asReads chunks)).invalidated = true) ∧
    (((catChunks chunks).length : Int) < size →
      (cvRun H expected code size [] (asReads chunks)).term =
        .failed ⟨code, shorterMsg (size - (catChunks chunks).length)⟩ ∧
      (cvRun H expected code size [] (asReads chunks)).invalidated = true) ∧
    (((catChunks chunks).length : Int) = size → H (catChunks chunks) ≠ expected →
      (cvRun H expected code size [] (asReads chunks)).term =
        .failed ⟨code, checksumMsg (H (catChunks chunks)) expected⟩ ∧
      (cvRun H expected code size [] (asReads chunks)).invalidated = true) := by
  refine ⟨?_, ?_, ?_, ?_⟩
  · intro hsize hhash
    subst hsize
    have := cvRun_exact_run H expected code chunks []
    rw [List.nil_append] at this
    rw [this, if_pos hhash]
  · intro hgt
    exact cvRun_overrun H expected code chunks [] size hgt
  · intro hlt
    exact cvRun_truncated H expected code chunks [] size hlt
  · intro hsize hhash
    subst hsize
    have := cvRun_exact_run H expected code chunks []
    rw [List.nil_append] at this
    rw [this, if_neg hhash]
    exact ⟨rfl, rfl⟩

theorem merkle_verifying_reader_C1_witness :
    cvRun (fun l => [l.length]) [2] .internal 2 [] (asReads [[7], [9]]) =
      ⟨[7, 9], .eofOk, false⟩ ∧
    (cvRun (fun l => [l.length]) [2] .internal 1 [] (asReads [[7], [9]])).term =
      .failed ⟨.internal, longerMsg⟩ ∧
    (cvRun (fun l => [l.length]) [2] .internal 5 [] (asReads [[7], [9]])).term =
      .failed ⟨.internal, shorterMsg 3⟩ ∧
    (cvRun (fun l => [l.length]) [9] .internal 2 [] (asReads [[7], [9]])).term =
      .failed ⟨.internal, checksumMsg [2] [9]⟩ :=
  ⟨(merkle_verifying_reader_C1 (fun l => [l.length]) [2] .internal [[7], [9]] 2).1
      (by decide) (by decide),
   ((merkle_verifying_reader_C1 (fun l => [l.length]) [2] .internal [[7], [9]] 1).2.1
      (by decide)).1,
   ((merkle_verifying_reader_C1 (fun l => [l.length]) [2] .internal [[7], [9]] 5).2.2.1
      (by decide)).1,
   ((merkle_verifying_reader_C1 (fun l => [l.length]) [9] .internal [[7], [9]] 2).2.2.2
      (by decide) (by decide)).1⟩

/-- Claim C2: the integrity adapter installs, on the Get side, a reader
whose error code is Internal and whose invalidator calls Delete on the
wrapped store (best effort, outcome logged), and, on the Put side, a
reader whose error code is InvalidArgument and whose invalidator does
nothing; every corruption failure detected by such a reader carries the
respective code and triggers the respective invalidator action. -/
theorem merkle_invalidator_codes_C2 (recognized : Nat → Bool) (H : List Nat → List Nat)
    (d : Digest) (reads : List (List Nat × Option UErr)) :
    (∀ cfg : CVConfig, merkleGet recognized d = .ok cfg →
      cfg.errorCode = .internal ∧ cfg.invalidator = .deleteWrapped ∧
      ∀ e, (cvRun H cfg.expectedChecksum cfg.errorCode cfg.sizeLeft [] reads).term = .failed e →
        e.code = .internal ∧
        (cvRun H cfg.expectedChecksum cfg.errorCode cfg.sizeLeft [] reads).invalidated = true) ∧
    (∀ (b : Bool) (cfg : CVConfig), merklePut recognized d = (b, .ok cfg) →
      cfg.errorCode = .invalidArgument ∧ cfg.invalidator = .noop ∧
      ∀ e, (cvRun H cfg.expectedChecksum cfg.errorCode cfg.sizeLeft [] reads).term = .failed e →
        e.code = .invalidArgument ∧
        (cvRun H cfg.expectedChecksum cfg.errorCode cfg.sizeLeft [] reads).invalidated = true) := by
  constructor
  · intro cfg hcfg
    unfold merkleGet at hcfg
    cases hv : validateDigest recognized d with
    | some e => rw [hv] at hcfg; cases hcfg
    | none =>
      rw [hv] at hcfg
      cases hcfg
      refine ⟨rfl, rfl, ?_⟩
      intro e he
      have := cvRun_failed_code H _ _ reads _ [] e he
      exact ⟨this.1, this.2⟩
  · intro b cfg hcfg
    unfold merklePut at hcfg
    cases hv : validateDigest recognized d with
    | some e => rw [hv] at hcfg; cases hcfg
    | none =>
      rw [hv] at hcfg
      cases hcfg
      refine ⟨rfl, rfl, ?_⟩
      intro e he
      have := cvRun_failed_code H _ _ reads _ [] e he
      exact ⟨this.1, this.2⟩

theorem merkle_invalidator_codes_C2_witness :
    ((merkleGet (fun n => n == 2) ⟨['a', 'a'], 1⟩ = .ok ⟨[170], 1, .deleteWrapped, .internal⟩) ∧
      (cvRun (fun l => [l.length]) [170] .internal 1 [] (asReads [])).term =
        .failed ⟨.internal, shorterMsg 1⟩) ∧
    StatusError.code ⟨.internal, shorterMsg 1⟩ = .internal ∧
    (cvRun (fun l => [l.length]) [170] .internal 1 [] (asReads [])).invalidated = true ∧
    (merklePut (fun n => n == 2) ⟨['a', 'a'], 1⟩ = (false, .ok ⟨[170], 1, .noop, .invalidArgument⟩)) ∧
    StatusError.code ⟨.invalidArgument, shorterMsg 1⟩ = .invalidArgument := by
  have hget :
      merkleGet (fun n => n == 2) ⟨['a', 'a'], 1⟩ = .ok ⟨[170], 1, .deleteWrapped, .internal⟩ := by
    rfl
  have hterm :
      (cvRun (fun l => [l.length]) [170] .internal 1 [] (asReads [])).term =
        .failed ⟨.internal, shorterMsg 1⟩ := by
    decide
  have h := ((merkle_invalidator_codes_C2 (fun n => n == 2) (fun l => [l.length])
      ⟨['a', 'a'], 1⟩ (asReads [])).1 ⟨[170], 1, .deleteWrapped, .internal⟩ hget).2.2
      ⟨.internal, shorterMsg 1⟩ hterm
  have hput := (merkle_invalidator_codes_C2 (fun n => n == 2) (fun l => [l.length])
      ⟨['a', 'a'], 1⟩ (asReads [])).2 false ⟨[170], 1, .noop, .invalidArgument⟩ (by rfl)
  exact ⟨⟨hget, hterm⟩, h.1, h.2, by rfl, hput.1⟩

/-- If findSome? produces a value, some member of the list produces it. -/
theorem findSome_mem {α β : Type} (f : α → Option β) :
    ∀ (l : List α) (b : β), l.findSome? f = some b → ∃ a ∈ l, f a = some b := by
  intro l
  induction l with
  | nil => intro b h; cases h
  | cons x xs ih =>
    intro b h
    rw [List.findSome?_cons] at h
    cases hx : f x with
    | some v =>
      rw [hx] at h
      cases h
      exact ⟨x, List.mem_cons_self x xs, hx⟩
    | none =>
      rw [hx] at h
      obtain ⟨a, ha, hfa⟩ := ih b h
      exact ⟨a, List.mem_cons_of_mem x ha, hfa⟩

/-- Every error returned by validateDigest carries code InvalidArgument. -/
theorem validateDigest_some_code (recognized : Nat → Bool) (d : Digest) :
    ∀ e, validateDigest recognized d = some e → e.code = .invalidArgument := by
  intro e h
  unfold validateDigest at h
  by_cases hrec : recognized d.hash.length
  · rw [if_neg (by simp [hrec])] at h
    cases hf : d.hash.find? (fun c => !(isLowerHexDigit c)) with
    | some c => rw [hf] at h; cases h; rfl
    | none =>
      rw [hf] at h
      by_cases hs : d.sizeBytes < 0
      · rw [if_pos hs] at h; cases h; rfl
      · rw [if_neg hs] at h; cases h
  · rw [if_pos (by simp [hrec])] at h
    cases h
    rfl

/-- Claim C3: digest validation accepts a digest exactly when its hash
length is recognized, every hash character is a lowercase hexadecimal
digit (so uppercase hex is rejected), and its size is non-negative;
every validation error carries code InvalidArgument; an invalid digest
makes Get, Put, Delete and FindMissing of the integrity adapter fail
with that error, and on Put the supplied reader is closed before the
error is returned. -/
theorem merkle_digest_validation_C3 (recognized : Nat → Bool) (d : Digest) :
    (validateDigest recognized d = none ↔
      (recognized d.hash.length = true ∧ (∀ c ∈ d.hash, isLowerHexDigit c = true) ∧
        0 ≤ d.sizeBytes)) ∧
    (∀ e, validateDigest recognized d = some e → e.code = .invalidArgument) ∧
    (∀ e, validateDigest recognized d = some e →
      merkleGet recognized d = .error e ∧
      merklePut recognized d = (true, .error e) ∧
      merkleDelete recognized d = .error e) ∧
    (∀ (digests : List Digest) e, d ∈ digests → validateDigest recognized d = some e →
      ∃ e2, merkleFindMissing recognized digests = .error e2 ∧ e2.code = .invalidArgument) := by
  refine ⟨?_, validateDigest_some_code recognized d, ?_, ?_⟩
  · unfold validateDigest
    by_cases hrec : recognized d.hash.length
    · rw [if_neg (by simp [hrec])]
      cases hf : d.hash.find? (fun c => !(isLowerHexDigit c)) with
      | some c =>
        have hc := List.find?_some hf
        have hmem := List.mem_of_find?_eq_some hf
        simp only [Bool.not_eq_true'] at hc
        constructor
        · intro h; cases h
        · rintro ⟨-, hall, -⟩
          exact absurd (hall c hmem) (by simp [hc])
      | none =>
        have hall := List.find?_eq_none.mp hf
        by_cases hs : d.sizeBytes < 0
        · rw [if_pos hs]
          constructor
          · intro h; cases h
          · rintro ⟨-, -, hge⟩; omega
        · rw [if_neg hs]
          constructor
          · intro _
            refine ⟨hrec, ?_, by omega⟩
            intro c hc
            have := hall c hc
            simpa using this
          · intro _; rfl
    · rw [if_pos (by simp [hrec])]
      constructor
      · intro h; cases h
      · rintro ⟨habs, -, -⟩
        exact absurd habs (by simp [hrec])
  · intro e h
    refine ⟨?_, ?_, ?_⟩
    · unfold merkleGet; rw [h]
    · unfold merklePut; rw [h]
    · unfold merkleDelete; rw [h]
  · intro digests e hmem hval
    cases hfs : digests.findSome? (fun x => validateDigest recognized x) with
    | some e2 =>
      obtain ⟨a, -, hfa⟩ := findSome_mem (fun x => validateDigest recognized x) digests e2 hfs
      refine ⟨e2, ?_, validateDigest_some_code recognized a e2 hfa⟩
      unfold merkleFindMissing
      rw [hfs]
    | none =>
      exfalso
      have := List.findSome?_eq_none_iff.mp hfs d hmem
      rw [hval] at this
      cases this

theorem merkle_digest_validation_C3_witness :
    validateDigest (fun n => n == 3) ⟨['a', 'b', 'c'], 5⟩ = none ∧
    merkleGet (fun n => n == 3) ⟨['A', 'b', 'c'], 5⟩ =
      .error ⟨.invalidArgument, "Non-hexadecimal character in digest hash"⟩ ∧
    merklePut (fun n => n == 3) ⟨['A', 'b', 'c'], 5⟩ =
      (true, .error ⟨.invalidArgument, "Non-hexadecimal character in digest hash"⟩) ∧
    merkleDelete (fun n => n == 3) ⟨['A', 'b', 'c'], 5⟩ =
      .error ⟨.invalidArgument, "Non-hexadecimal character in digest hash"⟩ ∧
    ∃ e2, merkleFindMissing (fun n => n == 3) [⟨['A', 'b', 'c'], 5⟩] = .error e2 ∧
      e2.code = .invalidArgument := by
  have hval : validateDigest (fun n => n == 3) ⟨['A', 'b', 'c'], 5⟩ =
      some ⟨.invalidArgument, "Non-hexadecimal character in digest hash"⟩ := by
    decide
  have h1 := (merkle_digest_validation_C3 (fun n => n == 3) ⟨['a', 'b', 'c'], 5⟩).1.mpr
    (by refine ⟨by decide, ?_, by decide⟩; decide)
  have h3 := (merkle_digest_validation_C3 (fun n => n == 3) ⟨['A', 'b', 'c'], 5⟩).2.2.1 _ hval
  have h4 := (merkle_digest_validation_C3 (fun n => n == 3) ⟨['A', 'b', 'c'], 5⟩).2.2.2
    [⟨['A', 'b', 'c'], 5⟩] _ (List.mem_singleton.mpr rfl) hval
  exact ⟨h1, h3.1, h3.2.1, h3.2.2, h4⟩

/-! Section: Sharding adapter (pkg/blobstore/sharding/sharding_blob_access.go) -/

/-- The FNV-1a prime used by shardingBlobAccess.getBackend. -/
def fnvPrime : Nat := 1099511628211

/-- One step of the FNV-1a loop of getBackend: xor in the character,
multiply by the prime, all in 64-bit arithmetic. -/
def fnv1aStep (h c : Nat) : Nat := ((h ^^^ c) * fnvPrime) % 2 ^ 64

/-- Embeds the hashing loop of shardingBlobAccess.getBackend: FNV-1a
over the characters of the digest key, seeded with the configured
initialization constant (a 64-bit value). -/
def fnv1a (hashInit : Nat) (key : List Nat) : Nat :=
  key.foldl fnv1aStep (hashInit % 2 ^ 64)

/-- Embeds shardingBlobAccess.getBackend.  The ShardSelector is not part
of the repository snapshot.  Modelled from the spec: GetShard accepts
the hash and a predicate isDrained and calls the predicate with
candidate slot indices until it returns false; it is modelled as the
candidate index sequence `cands` it would try for a given hash.  The
predicate supplied by getBackend reports a slot drained exactly when its
backend entry is nil (here: none), so the chosen backend is the first
live candidate. -/
def getBackend {β : Type} (backends : List (Option β)) (cands : Nat → List Nat)
    (hashInit : Nat) (key : List Nat) : Option β :=
  match (cands (fnv1a hashInit key)).find? (fun i => !((backends.getD i none).isNone)) with
  | some i => backends.getD i none
  | none => none

/-- Claim C4: the back-end choice is a deterministic function of the
digest key and the back-end shape: the key is hashed with FNV-1a (xor
then multiply by 1099511628211 in 64-bit arithmetic, from a configurable
initialization constant), the selector is consulted at that hash with a
drained-slot predicate that holds exactly for nil entries, and drained
candidates are skipped so the request routes to the first live
candidate; repeated calls with the same digest and shape agree. -/
theorem sharding_backend_choice_C4 {β : Type} (backends : List (Option β))
    (cands : Nat → List Nat) (hashInit : Nat) :
    (∀ h c, fnv1aStep h c = ((h ^^^ c) * 1099511628211) % 2 ^ 64) ∧
    (∀ c key, fnv1a hashInit (c :: key) =
      List.foldl fnv1aStep (fnv1aStep (hashInit % 2 ^ 64) c) key) ∧
    (∀ key₁ key₂, fnv1a hashInit key₁ = fnv1a hashInit key₂ →
      getBackend backends cands hashInit key₁ = getBackend backends cands hashInit key₂) ∧
    (∀ key (pre post : List Nat) (i : Nat) (b : β),
      cands (fnv1a hashInit key) = pre ++ i :: post →
      (∀ j ∈ pre, backends.getD j none = none) →
      backends.getD i none = some b →
      getBackend backends cands hashInit key = some b) := by
  refine ⟨fun h c => rfl, ?_, ?_, ?_⟩
  · intro c key
    unfold fnv1a
    rw [List.foldl_cons]
  · intro key₁ key₂ hk
    unfold getBackend
    rw [hk]
  · intro key pre post i b hc hdrained hlive
    have hfind : ∀ (pre2 : List Nat), (∀ j ∈ pre2, backends.getD j none = none) →
        (pre2 ++ i :: post).find? (fun j => !((backends.getD j none).isNone)) = some i := by
      intro pre2
      induction pre2 with
      | nil =>
        intro _
        rw [List.nil_append, List.find?_cons]
        have : (!((backends.getD i none).isNone)) = true := by rw [hlive]; rfl
        rw [this]
      | cons p ps ih =>
        intro hdr
        rw [List.cons_append, List.find?_cons]
        have hp : backends.getD p none = none := hdr p (List.mem_cons_self p ps)
        have : (!((backends.getD p none).isNone)) = false := by rw [hp]; rfl
        rw [this]
        exact ih (fun j hj => hdr j (List.mem_cons_of_mem p hj))
    unfold getBackend
    rw [hc, hfind pre hdrained]
    exact hlive

theorem sharding_backend_choice_C4_witness :
    getBackend [some 0, none] (fun _ => [1, 0]) 14695981039346656037 [7] = some 0 ∧
    fnv1aStep 3 5 = ((3 ^^^ 5) * 1099511628211) % 2 ^ 64 := by
  refine ⟨?_, (sharding_backend_choice_C4 ([some 0, none] : List (Option Nat))
    (fun _ => [1, 0]) 14695981039346656037).1 3 5⟩
  exact (sharding_backend_choice_C4 ([some 0, none] : List (Option Nat))
    (fun _ => [1, 0]) 14695981039346656037).2.2.2 [7] [1] [] 0 0 rfl
      (by intro j hj; simp at hj; subst hj; rfl) rfl

/-- Appends an element to the group of its key, keeping group order;
this is the per-digest step of the digestsPerBackend map construction in
shardingBlobAccess.FindMissing. -/
def addToGroup {α κ : Type} [DecidableEq κ] : List (κ × List α) → κ → α → List (κ × List α)
  | [], k, a => [(k, [a])]
  | (k2, xs) :: rest, k, a =>
    if k2 = k then (k2, xs ++ [a]) :: rest else (k2, xs) :: addToGroup rest k a

/-- Embeds the grouping loop of shardingBlobAccess.FindMissing: the
input digests are grouped by their chosen backend. -/
def groupByBackend {α κ : Type} [DecidableEq κ] (choose : α → κ) (l : List α) :
    List (κ × List α) :=
  l.foldl (fun gs a => addToGroup gs (choose a) a) []

/-- The result of one backend FindMissing call (findMissingResults). -/
structure FMResult (α ε : Type) where
  missing : List α
  err : Option ε
  deriving DecidableEq, Repr

/-- Embeds the recombination loop of shardingBlobAccess.FindMissing over
the per-backend results in their channel arrival order: a successful
result appends its missing list, a failed result overwrites the error. -/
def recombine {α ε : Type} (rs : List (FMResult α ε)) : List α × Option ε :=
  rs.foldl
    (fun acc r =>
      match r.err with
      | none => (acc.1 ++ r.missing, acc.2)
      | some e => (acc.1, some e))
    ([], none)

/-- Embeds shardingBlobAccess.FindMissing after grouping: one call per
backend group, results joined in arrival order. -/
def shardedFindMissing {α κ ε : Type} (resp : κ → List α → FMResult α ε)
    (arrival : List (κ × List α)) : List α × Option ε :=
  recombine (arrival.map (fun g => resp g.1 g.2))

/-- The missing lists of the successful results, concatenated in order. -/
def joinMissing {α ε : Type} (rs : List (FMResult α ε)) : List α :=
  rs.foldr (fun r acc => if r.err.isNone then r.missing ++ acc else acc) []

/-- The last error observed while folding over the results. -/
def lastErrFrom {α ε : Type} (e0 : Option ε) (rs : List (FMResult α ε)) : Option ε :=
  rs.foldl
    (fun a r =>
      match r.err with
      | none => a
      | some e => some e)
    e0

theorem recombine_foldl {α ε : Type} :
    ∀ (rs : List (FMResult α ε)) (m : List α) (e : Option ε),
      rs.foldl
          (fun acc r =>
            match r.err with
            | none => (acc.1 ++ r.missing, acc.2)
            | some e2 => (acc.1, some e2))
          (m, e) =
        (m ++ joinMissing rs, lastErrFrom e rs) := by
  intro rs
  induction rs with
  | nil => intro m e; simp [joinMissing, lastErrFrom]
  | cons r rest ih =>
    intro m e
    rw [List.foldl_cons]
    cases hr : r.err with
    | none =>
      simp only [hr]
      rw [ih (m ++ r.missing) e]
      simp [joinMissing, lastErrFrom, hr, List.append_assoc]
    | some e2 =>
      simp only [hr]
      rw [ih m (some e2)]
      simp [joinMissing, lastErrFrom, hr]

theorem recombine_eq {α ε : Type} (rs : List (FMResult α ε)) :
    recombine rs = (joinMissing rs, lastErrFrom none rs) := by
  unfold recombine
  rw [recombine_foldl rs [] none]
  simp

theorem mem_joinMissing {α ε : Type} :
    ∀ (rs : List (FMResult α ε)) (x : α),
      x ∈ joinMissing rs ↔ ∃ r ∈ rs, r.err = none ∧ x ∈ r.missing := by
  intro rs
  induction rs with
  | nil => intro x; simp [joinMissing]
  | cons r rest ih =>
    intro x
    cases hr : r.err with
    | none =>
      simp only [joinMissing, List.foldr_cons, hr, Option.isNone_none, if_pos]
      rw [List.mem_append]
      constructor
      · rintro (hx | hx)
        · exact ⟨r, List.mem_cons_self r rest, hr, hx⟩
        · obtain ⟨r2, hr2, he2, hx2⟩ := (ih x).mp hx
          exact ⟨r2, List.mem_cons_of_mem r hr2, he2, hx2⟩
      · rintro ⟨r2, hr2, he2, hx2⟩
        rcases List.mem_cons.mp hr2 with h | h
        · subst h; exact Or.inl hx2
        · exact Or.inr ((ih x).mpr ⟨r2, h, he2, hx2⟩)
    | some e2 =>
      have : joinMissing (r :: rest) = joinMissing rest := by
        simp [joinMissing, hr]
      rw [this, ih x]
      constructor
      · rintro ⟨r2, hr2, he2, hx2⟩
        exact ⟨r2, List.mem_cons_of_mem r hr2, he2, hx2⟩
      · rintro ⟨r2, hr2, he2, hx2⟩
        rcases List.mem_cons.mp hr2 with h | h
        · subst h; rw [hr] at he2; cases he2
        · exact ⟨r2, h, he2, hx2⟩

theorem lastErrFrom_none_iff {α ε : Type} :
    ∀ (rs : List (FMResult α ε)) (e0 : Option ε),
      lastErrFrom e0 rs = none ↔ (e0 = none ∧ ∀ r ∈ rs, r.err = none) := by
  intro rs
  induction rs with
  | nil => intro e0; simp [lastErrFrom]
  | cons r rest ih =>
    intro e0
    cases hr : r.err with
    | none =>
      have hstep : lastErrFrom e0 (r :: rest) = lastErrFrom e0 rest := by
        simp [lastErrFrom, hr]
      rw [hstep, ih e0]
      constructor
      · rintro ⟨he0, hall⟩
        refine ⟨he0, ?_⟩
        intro r2 hr2
        rcases List.mem_cons.mp hr2 with h | h
        · subst h; exact hr
        · exact hall r2 h
      · rintro ⟨he0, hall⟩
        exact ⟨he0, fun r2 h2 => hall r2 (List.mem_cons_of_mem r h2)⟩
    | some e2 =>
      have hstep : lastErrFrom e0 (r :: rest) = lastErrFrom (some e2) rest := by
        simp [lastErrFrom, hr]
      rw [hstep, ih (some e2)]
      constructor
      · rintro ⟨he0, -⟩
        cases he0
      · rintro ⟨-, hall⟩
        have := hall r (List.mem_cons_self r rest)
        rw [hr] at this
        cases this

theorem addToGroup_keys {α κ : Type} [DecidableEq κ] :
    ∀ (gs : List (κ × List α)) (k : κ) (a : α),
      (addToGroup gs k a).map Prod.fst =
        if k ∈ gs.map Prod.fst then gs.map Prod.fst else gs.map Prod.fst ++ [k] := by
  intro gs
  induction gs with
  | nil => intro k a; simp [addToGroup]
  | cons g rest ih =>
    intro k a
    obtain ⟨k2, xs⟩ := g
    by_cases hk : k2 = k
    · subst hk
      simp [addToGroup]
    · rw [show addToGroup ((k2, xs) :: rest) k a = (k2, xs) :: addToGroup rest k a from by
        simp [addToGroup, hk]]
      simp only [List.map_cons]
      rw [ih k a]
      by_cases hmem : k ∈ rest.map Prod.fst
      · rw [if_pos hmem, if_pos (by simp [hmem])]
      · rw [if_neg hmem, if_neg (by simp [hmem, Ne.symm hk]), List.cons_append]

theorem groupByBackend_keys_nodup {α κ : Type} [DecidableEq κ] (choose : α → κ) (l : List α) :
    ((groupByBackend choose l).map Prod.fst).Nodup := by
  suffices h : ∀ (l2 : List α) (gs : List (κ × List α)), (gs.map Prod.fst).Nodup →
      ((l2.foldl (fun gs2 a => addToGroup gs2 (choose a) a) gs).map Prod.fst).Nodup by
    exact h l [] (by simp)
  intro l2
  induction l2 with
  | nil => intro gs h; simpa using h
  | cons a rest ih =>
    intro gs h
    rw [List.foldl_cons]
    refine ih _ ?_
    rw [addToGroup_keys gs (choose a) a]
    by_cases hmem : choose a ∈ gs.map Prod.fst
    · rw [if_pos hmem]; exact h
    · rw [if_neg hmem]
      exact List.Nodup.append h (List.nodup_singleton _) (by
        intro x hx hx2
        rcases List.mem_singleton.mp hx2 with h2
        subst h2
        exact hmem hx)

theorem mem_addToGroup {α κ : Type} [DecidableEq κ] :
    ∀ (gs : List (κ × List α)) (k : κ) (a x : α),
      (∃ g ∈ addToGroup gs k a, x ∈ g.2) ↔ (∃ g ∈ gs, x ∈ g.2) ∨ x = a := by
  intro gs
  induction gs with
  | nil =>
    intro k a x
    simp [addToGroup]
  | cons g rest ih =>
    intro k a x
    obtain ⟨k2, xs⟩ := g
    by_cases hk : k2 = k
    · subst hk
      rw [show addToGroup ((k2, xs) :: rest) k2 a = (k2, xs ++ [a]) :: rest from by
        simp [addToGroup]]
      simp only [List.mem_cons]
      constructor
      · rintro ⟨g2, hg2, hx⟩
        rcases hg2 with h | h
        · subst h
          rcases List.mem_append.mp hx with h2 | h2
          · exact Or.inl ⟨(k2, xs), Or.inl rfl, h2⟩
          · exact Or.inr (List.mem_singleton.mp h2)
        · exact Or.inl ⟨g2, Or.inr h, hx⟩
      · rintro (⟨g2, hg2, hx⟩ | hxa)
        · rcases hg2 with h | h
          · subst h
            exact ⟨(k2, xs ++ [a]), Or.inl rfl, List.mem_append.mpr (Or.inl hx)⟩
          · exact ⟨g2, Or.inr h, hx⟩
        · subst hxa
          exact ⟨(k2, xs ++ [x]), Or.inl rfl, List.mem_append.mpr (Or.inr (List.mem_singleton.mpr rfl))⟩
    · rw [show addToGroup ((k2, xs) :: rest) k a = (k2, xs) :: addToGroup rest k a from by
        simp [addToGroup, hk]]
      simp only [List.mem_cons]
      constructor
      · rintro ⟨g2, hg2, hx⟩
        rcases hg2 with h | h
        · subst h
          exact Or.inl ⟨(k2, xs), Or.inl rfl, hx⟩
        · rcases (ih k a x).mp ⟨g2, h, hx⟩ with ⟨g3, hg3, hx3⟩ | hxa
          · exact Or.inl ⟨g3, Or.inr hg3, hx3⟩
          · exact Or.inr hxa
      · rintro (⟨g2, hg2, hx⟩ | hxa)
        · rcases hg2 with h | h
          · subst h
            exact ⟨(k2, xs), Or.inl rfl, hx⟩
          · obtain ⟨g3, hg3, hx3⟩ := (ih k a x).mpr (Or.inl ⟨g2, h, hx⟩)
            exact ⟨g3, Or.inr hg3, hx3⟩
        · obtain ⟨g3, hg3, hx3⟩ := (ih k a x).mpr (Or.inr hxa)
          exact ⟨g3, Or.inr hg3, hx3⟩

theorem mem_groupByBackend {α κ : Type} [DecidableEq κ] (choose : α → κ) (l : List α) (x : α) :
    (∃ g ∈ groupByBackend choose l, x ∈ g.2) ↔ x ∈ l := by
  suffices h : ∀ (l2 : List α) (gs : List (κ × List α)),
      (∃ g ∈ l2.foldl (fun gs2 a => addToGroup gs2 (choose a) a) gs, x ∈ g.2) ↔
        (∃ g ∈ gs, x ∈ g.2) ∨ x ∈ l2 by
    rw [groupByBackend, h l []]
    simp
  intro l2
  induction l2 with
  | nil => intro gs; simp
  | cons a rest ih =>
    intro gs
    rw [List.foldl_cons, ih (addToGroup gs (choose a) a), mem_addToGroup]
    simp only [List.mem_cons]
    constructor
    · rintro ((h | h) | h)
      · exact Or.inl h
      · exact Or.inr (Or.inl h)
      · exact Or.inr (Or.inr h)
    · rintro (h | (h | h))
      · exact Or.inl (Or.inl h)
      · exact Or.inl (Or.inr h)
      · exact Or.inr h

theorem addToGroup_consistent {α κ : Type} [DecidableEq κ] (choose : α → κ) :
    ∀ (gs : List (κ × List α)) (a : α),
      (∀ g ∈ gs, ∀ d ∈ g.2, choose d = g.1) →
      ∀ g ∈ addToGroup gs (choose a) a, ∀ d ∈ g.2, choose d = g.1 := by
  intro gs
  induction gs with
  | nil =>
    intro a _ g hg d hd
    simp [addToGroup] at hg
    subst hg
    simp at hd
    subst hd
    rfl
  | cons g0 rest ih =>
    intro a hinv g hg d hd
    obtain ⟨k2, xs⟩ := g0
    by_cases hk : k2 = choose a
    · rw [show addToGroup ((k2, xs) :: rest) (choose a) a = (k2, xs ++ [a]) :: rest from by
        simp [addToGroup, hk]] at hg
      rcases List.mem_cons.mp hg with h | h
      · subst h
        rcases List.mem_append.mp hd with h2 | h2
        · exact hinv (k2, xs) (List.mem_cons_self _ _) d h2
        · rw [List.mem_singleton.mp h2, hk]
      · exact hinv g (List.mem_cons_of_mem _ h) d hd
    · rw [show addToGroup ((k2, xs) :: rest) (choose a) a = (k2, xs) :: addToGroup rest (choose a) a from by
        simp [addToGroup, hk]] at hg
      rcases List.mem_cons.mp hg with h | h
      · subst h
        exact hinv (k2, xs) (List.mem_cons_self _ _) d hd
      · exact ih a (fun g2 h2 => hinv g2 (List.mem_cons_of_mem _ h2)) g h d hd

theorem groupByBackend_consistent {α κ : Type} [DecidableEq κ] (choose : α → κ) (l : List α) :
    ∀ g ∈ groupByBackend choose l, ∀ d ∈ g.2, choose d = g.1 := by
  suffices h : ∀ (l2 : List α) (gs : List (κ × List α)),
      (∀ g ∈ gs, ∀ d ∈ g.2, choose d = g.1) →
      ∀ g ∈ l2.foldl (fun gs2 a => addToGroup gs2 (choose a) a) gs, ∀ d ∈ g.2, choose d = g.1 by
    exact h l [] (by simp)
  intro l2
  induction l2 with
  | nil => intro gs h; simpa using h
  | cons a rest ih =>
    intro gs h
    rw [List.foldl_cons]
    exact ih _ (addToGroup_consistent choose gs a h)

/-- Claim C5: FindMissing of the sharding adapter groups the input
digests by chosen backend (one group, hence one call, per backend: the
group keys are distinct, every digest lands in the group of its chosen
backend, and the groups cover exactly the input); the per-backend
results are recombined, in whatever order they arrive from the channel,
into the concatenation of the missing lists of the successful calls
together with the last observed error; a failed backend never removes a
successful backend result from the returned missing list, and the error
is nil exactly when every backend call succeeded. -/
theorem sharding_findmissing_fanout_C5 {α κ ε : Type} [DecidableEq κ]
    (choose : α → κ) (digests : List α) (resp : κ → List α → FMResult α ε)
    (arrival : List (κ × List α)) (hperm : arrival.Perm (groupByBackend choose digests)) :
    ((groupByBackend choose digests).map Prod.fst).Nodup ∧
    (∀ d, d ∈ digests ↔ ∃ g ∈ arrival, d ∈ g.2) ∧
    (∀ g ∈ arrival, ∀ d ∈ g.2, choose d = g.1) ∧
    shardedFindMissing resp arrival =
      (joinMissing (arrival.map fun g => resp g.1 g.2),
        lastErrFrom none (arrival.map fun g => resp g.1 g.2)) ∧
    (∀ g ∈ arrival, (resp g.1 g.2).err = none →
      ∀ x ∈ (resp g.1 g.2).missing, x ∈ (shardedFindMissing resp arrival).1) ∧
    ((shardedFindMissing resp arrival).2 = none ↔
      ∀ g ∈ arrival, (resp g.1 g.2).err = none) := by
  have heq : shardedFindMissing resp arrival =
      (joinMissing (arrival.map fun g => resp g.1 g.2),
        lastErrFrom none (arrival.map fun g => resp g.1 g.2)) :=
    recombine_eq _
  refine ⟨groupByBackend_keys_nodup choose digests, ?_, ?_, heq, ?_, ?_⟩
  · intro d
    rw [← mem_groupByBackend choose digests d]
    constructor
    · rintro ⟨g, hg, hd⟩
      exact ⟨g, hperm.mem_iff.mpr hg, hd⟩
    · rintro ⟨g, hg, hd⟩
      exact ⟨g, hperm.mem_iff.mp hg, hd⟩
  · intro g hg
    exact groupByBackend_consistent choose digests g (hperm.mem_iff.mp hg)
  · intro g hg herr x hx
    rw [heq]
    exact (mem_joinMissing _ x).mpr
      ⟨resp g.1 g.2, List.mem_map.mpr ⟨g, hg, rfl⟩, herr, hx⟩
  · rw [heq]
    simp only
    rw [lastErrFrom_none_iff]
    constructor
    · rintro ⟨-, hall⟩
      intro g hg
      exact hall (resp g.1 g.2) (List.mem_map.mpr ⟨g, hg, rfl⟩)
    · intro hall
      refine ⟨rfl, ?_⟩
      intro r hr
      obtain ⟨g, hg, hgr⟩ := List.mem_map.mp hr
      rw [← hgr]
      exact hall g hg

theorem sharding_findmissing_fanout_C5_witness :
    shardedFindMissing
        (fun (k : Nat) (ds : List Nat) =>
          if k = 0 then (⟨[], some "boom"⟩ : FMResult Nat String) else ⟨ds, none⟩)
        [(0, [2]), (1, [1, 3])] = ([1, 3], some "boom") ∧
    (3 : Nat) ∈ (shardedFindMissing
        (fun (k : Nat) (ds : List Nat) =>
          if k = 0 then (⟨[], some "boom"⟩ : FMResult Nat String) else ⟨ds, none⟩)
        [(0, [2]), (1, [1, 3])]).1 := by
  have h := sharding_findmissing_fanout_C5 (fun d => d % 2) [1, 2, 3]
    (fun (k : Nat) (ds : List Nat) =>
      if k = 0 then (⟨[], some "boom"⟩ : FMResult Nat String) else ⟨ds, none⟩)
    [(0, [2]), (1, [1, 3])] (by decide)
  constructor
  · rw [h.2.2.2.1]
    rfl
  · exact h.2.2.2.2.1 (1, [1, 3]) (by decide) (by rfl) 3 (by decide)

/-! Section: ByteStream resource-name codec and streaming (source file of
parseResourceNameRead, parseResourceNameWrite, byteStreamServer) -/

/-- Single pass of strings.FieldsFunc with the slash separator: `cur`
holds the reversed characters of the field being accumulated; a slash
closes the current field (an empty one is dropped). -/
def fieldsAux (cur : List Char) : List Char → List (List Char)
  | [] => if cur = [] then [] else [cur.reverse]
  | c :: rest =>
    if c = '/' then
      if cur = [] then fieldsAux [] rest else cur.reverse :: fieldsAux [] rest
    else
      fieldsAux (c :: cur) rest

/-- Embeds strings.FieldsFunc with the slash separator, as used by both
resource-name parsers: the maximal non-empty runs of non-slash
characters, in order (empty runs are dropped). -/
def fieldsSlash (s : List Char) : List (List Char) :=
  fieldsAux [] s

/-- Whether a character is a decimal digit. -/
def isDigitChar (c : Char) : Bool := (('0' ≤ c) && (c ≤ '9'))

/-- Decimal value of a digit run. -/
def digitsToNat (ds : List Char) : Nat :=
  ds.foldl (fun a c => a * 10 + (c.toNat - '0'.toNat)) 0

/-- Embeds strconv.ParseInt(s, 10, 64): an optional sign followed by a
non-empty run of decimal digits, rejected when the value leaves the
signed 64-bit range. -/
def parseInt64 (s : List Char) : Option Int :=
  match s with
  | [] => none
  | c :: rest =>
    let neg : Bool := c = '-'
    let ds := if c = '-' || c = '+' then rest else s
    if ds = [] then none
    else if ds.all isDigitChar then
      let v : Int := if neg then -(digitsToNat ds : Int) else (digitsToNat ds : Int)
      if v < -(2 ^ 63) ∨ 2 ^ 63 ≤ v then none else some v
    else none

/-- Embeds parseResourceNameRead: accepts the field decomposition shapes
blobs/hash/size and instance/blobs/hash/size, extracting the instance
(empty when absent), hash and size. -/
def parseResourceNameRead (s : List Char) : Option (List Char × Digest) :=
  let f := fieldsSlash s
  let l := f.length
  if l ≠ 3 ∧ l ≠ 4 then none
  else if f.getD (l - 3) [] ≠ ['b', 'l', 'o', 'b', 's'] then none
  else
    match parseInt64 (f.getD (l - 1) []) with
    | none => none
    | some size =>
      some (if l = 4 then f.getD 0 [] else [], ⟨f.getD (l - 2) [], size⟩)

/-- Embeds parseResourceNameWrite: accepts the field decomposition
shapes uploads/uuid/blobs/hash/size and
instance/uploads/uuid/blobs/hash/size. -/
def parseResourceNameWrite (s : List Char) : Option (List Char × Digest) :=
  let f := fieldsSlash s
  let l := f.length
  if l ≠ 5 ∧ l ≠ 6 then none
  else if f.getD (l - 5) [] ≠ ['u', 'p', 'l', 'o', 'a', 'd', 's'] then none
  else if f.getD (l - 3) [] ≠ ['b', 'l', 'o', 'b', 's'] then none
  else
    match parseInt64 (f.getD (l - 1) []) with
    | none => none
    | some size =>
      some (if l = 6 then f.getD 0 [] else [], ⟨f.getD (l - 2) [], size⟩)

theorem fieldsAux_nonslash :
    ∀ (x : List Char) (cur rest : List Char), x.all (fun c => c ≠ '/') = true →
      fieldsAux cur (x ++ rest) = fieldsAux (x.reverse ++ cur) rest := by
  intro x
  induction x with
  | nil => intro cur rest _; simp
  | cons c xs ih =>
    intro cur rest hall
    rw [List.all_cons, Bool.and_eq_true] at hall
    have hc : ¬ (c = '/') := by simpa using hall.1
    rw [List.cons_append]
    rw [show fieldsAux cur (c :: (xs ++ rest)) = fieldsAux (c :: cur) (xs ++ rest) from by
      simp [fieldsAux, hc]]
    rw [ih (c :: cur) rest hall.2]
    rw [List.reverse_cons, List.append_assoc]
    rfl

/-- A non-empty slash-free run is one whole field. -/
theorem fieldsSlash_single (x : List Char) (hne : x ≠ [])
    (hall : x.all (fun c => c ≠ '/') = true) : fieldsSlash x = [x] := by
  unfold fieldsSlash
  have := fieldsAux_nonslash x [] [] hall
  rw [List.append_nil] at this
  rw [this, List.append_nil]
  have hrev : x.reverse ≠ [] := by simpa using hne
  simp [fieldsAux, hrev]

/-- A slash after a non-empty slash-free run closes exactly that field. -/
theorem fieldsSlash_sep (x rest : List Char) (hne : x ≠ [])
    (hall : x.all (fun c => c ≠ '/') = true) :
    fieldsSlash (x ++ '/' :: rest) = x :: fieldsSlash rest := by
  unfold fieldsSlash
  have := fieldsAux_nonslash x [] ('/' :: rest) hall
  rw [List.append_nil] at this
  rw [this]
  have hrev : ¬ (x.reverse = []) := by simpa using hne
  simp [fieldsAux, hrev]

/-- Raw slash split that keeps empty segments, used only to transcribe
the claim wording (slash-delimited segments, all non-empty). -/
def splitSlashRaw : List Char → List (List Char)
  | [] => [[]]
  | c :: rest =>
    if c = '/' then [] :: splitSlashRaw rest
    else
      match splitSlashRaw rest with
      | [] => [[c]]
      | f :: fs => (c :: f) :: fs

/-- Transcribes the claimed read form: 3 or 4 slash-delimited non-empty
segments, blobs at the third position from the tail, and the last
segment a decimal integer. -/
def claimReadFormOk (s : List Char) : Bool :=
  let raw := splitSlashRaw s
  let l := raw.length
  (decide (l = 3) || decide (l = 4)) && raw.all (fun f => !(f.isEmpty)) &&
    decide (raw.getD (l - 3) [] = ['b', 'l', 'o', 'b', 's']) &&
    (parseInt64 (raw.getD (l - 1) [])).isSome

/-- Transcribes the claimed write form: 5 or 6 slash-delimited non-empty
segments, uploads and blobs at fixed positions from the tail, and the
last segment a decimal integer. -/
def claimWriteFormOk (s : List Char) : Bool :=
  let raw := splitSlashRaw s
  let l := raw.length
  (decide (l = 5) || decide (l = 6)) && raw.all (fun f => !(f.isEmpty)) &&
    decide (raw.getD (l - 5) [] = ['u', 'p', 'l', 'o', 'a', 'd', 's']) &&
    decide (raw.getD (l - 3) [] = ['b', 'l', 'o', 'b', 's']) &&
    (parseInt64 (raw.getD (l - 1) [])).isSome

/-- Claim C6 counterexample: the parsers are built on strings.FieldsFunc,
which drops empty segments, so strings outside the two documented forms
(here with a leading slash, hence an empty first segment) are accepted
rather than rejected. -/
theorem resource_name_codec_C6_counterexample :
    parseResourceNameRead "/blobs/abc/5".data = some ([], ⟨['a', 'b', 'c'], 5⟩) ∧
    claimReadFormOk "/blobs/abc/5".data = false ∧
    parseResourceNameWrite "/uploads/u/blobs/abc/5".data = some ([], ⟨['a', 'b', 'c'], 5⟩) ∧
    claimWriteFormOk "/uploads/u/blobs/abc/5".data = false := by
  decide

/-- A bytestream.WriteRequest as seen by byteStreamServer.Write. -/
structure WriteRequest where
  resourceName : List Char
  writeOffset : Int
  data : List Nat
  finishWrite : Bool
  deriving DecidableEq, Repr

/-- The mutable state of byteStreamWriteServerReader: the running
expected offset and the unread remainder of the last received chunk. -/
structure BSWState where
  writeOffset : Int
  data : List Nat
  deriving DecidableEq, Repr

/-- How a Read call on the write-stream reader ends: clean end of the
stream (Recv returning io.EOF) or the offset-mismatch failure. -/
inductive RecvEnd where
  | eof
  | mismatch (got expected : Int)
  deriving DecidableEq, Repr

/-- Result of one Read call on byteStreamWriteServerReader: the bytes
copied into the buffer, the updated reader state, the remaining
requests, and the error if any. -/
structure LoopOut where
  outBytes : List Nat
  outState : BSWState
  outReqs : List WriteRequest
  outErr : Option RecvEnd
  deriving DecidableEq, Repr

/-- Embeds the loop of byteStreamWriteServerReader.Read: copy
min(pfree, len(data)) bytes from the previously received partial chunk
into the buffer with remaining capacity `pfree`; when the buffer is full
(copied pfree bytes, that is pfree le len(data)) return with no error;
otherwise the chunk is exhausted, so receive the next request, failing
if its write offset differs from the running offset, and otherwise
advance the offset by the received chunk length and continue with it. -/
def bswReadLoop : BSWState → List WriteRequest → Nat → List Nat → LoopOut
  | st, reqs, pfree, acc =>
    if pfree ≤ st.data.length then
      ⟨acc ++ st.data.take pfree, ⟨st.writeOffset, st.data.drop pfree⟩, reqs, none⟩
    else
      match reqs with
      | [] => ⟨acc ++ st.data, ⟨st.writeOffset, []⟩, [], some .eof⟩
      | r :: rest =>
        if r.writeOffset ≠ st.writeOffset then
          ⟨acc ++ st.data, ⟨st.writeOffset, []⟩, rest,
            some (.mismatch r.writeOffset st.writeOffset)⟩
        else
          bswReadLoop ⟨st.writeOffset + r.data.length, r.data⟩ rest
            (pfree - st.data.length) (acc ++ st.data)

/-- Receive-level view of draining the write stream from a given
running offset: data of offset-matching requests accumulates until the
stream ends (eof) or an offset mismatch occurs. -/
def recvDrain (off : Int) : List WriteRequest → List Nat × Option RecvEnd
  | [] => ([], some .eof)
  | r :: rest =>
    if r.writeOffset ≠ off then ([], some (.mismatch r.writeOffset off))
    else
      let p := recvDrain (off + r.data.length) rest
      (r.data ++ p.1, p.2)

theorem bswReadLoop_reqs_le :
    ∀ (reqs : List WriteRequest) (st : BSWState) (pfree : Nat) (acc : List Nat),
      (bswReadLoop st reqs pfree acc).outReqs.length ≤ reqs.length := by
  intro reqs
  induction reqs with
  | nil =>
    intro st pfree acc
    rw [bswReadLoop]
    by_cases h : pfree ≤ st.data.length <;> simp [h]
  | cons r rest ih =>
    intro st pfree acc
    rw [bswReadLoop]
    by_cases h : pfree ≤ st.data.length
    · simp [h]
    · simp only [if_neg h]
      by_cases hoff : r.writeOffset ≠ st.writeOffset
      · simp only [if_pos hoff]
        exact Nat.le_succ _
      · simp only [if_neg hoff]
        exact Nat.le_trans (ih _ _ _) (Nat.le_succ _)

theorem bswReadLoop_progress :
    ∀ (reqs : List WriteRequest) (st : BSWState) (pfree : Nat) (acc : List Nat),
      0 < pfree → (bswReadLoop st reqs pfree acc).outErr = none →
      (bswReadLoop st reqs pfree acc).outReqs.length < reqs.length ∨
        ((bswReadLoop st reqs pfree acc).outReqs = reqs ∧
          (bswReadLoop st reqs pfree acc).outState.data.length < st.data.length) := by
  intro reqs
  cases reqs with
  | nil =>
    intro st pfree acc hp herr
    rw [bswReadLoop] at herr ⊢
    by_cases h : pfree ≤ st.data.length
    · simp only [if_pos h]
      right
      constructor
      · simp
      · simp only [List.length_drop]
        omega
    · simp [h] at herr
  | cons r rest =>
    intro st pfree acc hp herr
    rw [bswReadLoop] at herr ⊢
    by_cases h : pfree ≤ st.data.length
    · simp only [if_pos h]
      right
      constructor
      · simp
      · simp only [List.length_drop]
        omega
    · simp only [if_neg h] at herr ⊢
      by_cases hoff : r.writeOffset ≠ st.writeOffset
      · simp [hoff] at herr
      · simp only [if_neg hoff] at herr ⊢
        left
        exact Nat.lt_succ_of_le (bswReadLoop_reqs_le rest _ _ _)

/-- Repeatedly calls bswReadLoop with a fixed positive buffer capacity
until the stream ends or fails, which is how a Put consumer drains the
reader handed to it by byteStreamServer.Write. -/
def bswReadAll (k : Nat) (st : BSWState) (reqs : List WriteRequest) :
    List Nat × Option RecvEnd :=
  let out := bswReadLoop st reqs (k + 1) []
  match h : out.outErr with
  | some e => (out.outBytes, some e)
  | none =>
    have _hdec := bswReadLoop_progress reqs st (k + 1) [] (Nat.succ_pos k) h
    let p := bswReadAll k out.outState out.outReqs
    (out.outBytes ++ p.1, p.2)
termination_by (reqs.length, st.data.length)
decreasing_by
  rcases _hdec with hlt | ⟨heq, hlt⟩
  · exact Prod.Lex.left _ _ hlt
  · rw [heq]
    exact Prod.Lex.right _ hlt

theorem take_drop_append (n : Nat) (l X : List Nat) :
    l.take n ++ (l.drop n ++ X) = l ++ X := by
  rw [← List.append_assoc, List.take_append_drop]

/-- Each Read call is consistent with the receive-level drain: on a full
buffer the not-yet-delivered remainder is preserved, and on an error the
delivered bytes are exactly those the drain accounts for, with the same
terminal event. -/
theorem bswReadLoop_drain :
    ∀ (reqs : List WriteRequest) (st : BSWState) (pfree : Nat) (acc : List Nat),
      ((bswReadLoop st reqs pfree acc).outErr = none →
        (bswReadLoop st reqs pfree acc).outBytes ++
            (bswReadLoop st reqs pfree acc).outState.data ++
            (recvDrain (bswReadLoop st reqs pfree acc).outState.writeOffset
              (bswReadLoop st reqs pfree acc).outReqs).1 =
          acc ++ st.data ++ (recvDrain st.writeOffset reqs).1 ∧
        (recvDrain (bswReadLoop st reqs pfree acc).outState.writeOffset
            (bswReadLoop st reqs pfree acc).outReqs).2 =
          (recvDrain st.writeOffset reqs).2) ∧
      (∀ e, (bswReadLoop st reqs pfree acc).outErr = some e →
        (bswReadLoop st reqs pfree acc).outBytes =
          acc ++ st.data ++ (recvDrain st.writeOffset reqs).1 ∧
        some e = (recvDrain st.writeOffset reqs).2) := by
  intro reqs
  induction reqs with
  | nil =>
    intro st pfree acc
    rw [bswReadLoop]
    by_cases h : pfree ≤ st.data.length
    · simp only [if_pos h]
      constructor
      · intro _
        constructor
        · simp [take_drop_append, recvDrain]
        · trivial
      · intro e he
        cases he
    · simp only [if_neg h]
      constructor
      · intro he
        cases he
      · intro e he
        have he2 : some RecvEnd.eof = some e := he
        cases he2
        exact ⟨by simp [recvDrain], rfl⟩
  | cons r rest ih =>
    intro st pfree acc
    rw [bswReadLoop]
    by_cases h : pfree ≤ st.data.length
    · simp only [if_pos h]
      constructor
      · intro _
        constructor
        · simp [take_drop_append]
        · trivial
      · intro e he
        cases he
    · simp only [if_neg h]
      by_cases hoff : r.writeOffset ≠ st.writeOffset
      · simp only [if_pos hoff]
        constructor
        · intro he
          cases he
        · intro e he
          have he2 : some (RecvEnd.mismatch r.writeOffset st.writeOffset) = some e := he
          cases he2
          rw [show recvDrain st.writeOffset (r :: rest) =
              ([], some (.mismatch r.writeOffset st.writeOffset)) from by
            simp [recvDrain, hoff]]
          exact ⟨by simp, rfl⟩
      · simp only [if_neg hoff]
        have hoffeq : r.writeOffset = st.writeOffset := by
          by_contra hc
          exact hoff hc
        have hdrain : recvDrain st.writeOffset (r :: rest) =
            (r.data ++ (recvDrain (st.writeOffset + r.data.length) rest).1,
              (recvDrain (st.writeOffset + r.data.length) rest).2) := by
          rw [recvDrain]
          rw [if_neg (by rw [hoffeq]; exact fun hc => hc rfl)]
        have hrec := ih ⟨st.writeOffset + r.data.length, r.data⟩
          (pfree - st.data.length) (acc ++ st.data)
        constructor
        · intro he
          obtain ⟨h1, h2⟩ := hrec.1 he
          constructor
          · rw [h1, hdrain]
            simp [List.append_assoc]
          · rw [h2, hdrain]
        · intro e he
          obtain ⟨h1, h2⟩ := hrec.2 e he
          constructor
          · rw [h1, hdrain]
            simp [List.append_assoc]
          · rw [h2, hdrain]

/-- Draining the reader with repeated Read calls delivers the partial
chunk followed by the receive-level drain, ending with its terminal
event. -/
theorem bswReadAll_eq (k : Nat) :
    ∀ (st : BSWState) (reqs : List WriteRequest),
      bswReadAll k st reqs =
        (st.data ++ (recvDrain st.writeOffset reqs).1, (recvDrain st.writeOffset reqs).2) := by
  intro st reqs
  induction st, reqs using bswReadAll.induct k with
  | case1 a b c ed hout =>
    rw [bswReadAll]
    split
    · rename_i e2 heq
      obtain ⟨h1, h2⟩ := (bswReadLoop_drain b a (k + 1) []).2 e2 heq
      rw [Prod.mk.injEq]
      constructor
      · rw [h1]
        simp
      · exact h2
    · rename_i heq
      rw [heq] at hout
      cases hout
  | case2 a b c hnone hdec ihf =>
    rw [bswReadAll]
    split
    · rename_i e2 heq
      rw [heq] at hnone
      cases hnone
    · rename_i heq
      show (c.outBytes ++ (bswReadAll k c.outState c.outReqs).1,
          (bswReadAll k c.outState c.outReqs).2) =
        (a.data ++ (recvDrain a.writeOffset b).1, (recvDrain a.writeOffset b).2)
      rw [ihf]
      obtain ⟨h1, h2⟩ := (bswReadLoop_drain b a (k + 1) []).1 heq
      rw [Prod.mk.injEq]
      constructor
      · rw [← List.append_assoc, h1]
        simp
      · exact h2

/-- Checks that a request sequence carries, from the given base, a
write offset equal to the running total of bytes delivered so far. -/
def offsetsOk (base : Int) : List WriteRequest → Bool
  | [] => true
  | r :: rest => (r.writeOffset == base) && offsetsOk (base + r.data.length) rest

/-- Concatenation of the data chunks of a request sequence. -/
def flatData (reqs : List WriteRequest) : List Nat :=
  reqs.foldr (fun r acc => r.data ++ acc) []

theorem flatData_nil : flatData [] = [] := rfl

theorem flatData_cons (r : WriteRequest) (rest : List WriteRequest) :
    flatData (r :: rest) = r.data ++ flatData rest := rfl

theorem recvDrain_ok :
    ∀ (good : List WriteRequest) (base : Int) (more : List WriteRequest),
      offsetsOk base good = true →
      recvDrain base (good ++ more) =
        (flatData good ++ (recvDrain (base + (flatData good).length) more).1,
          (recvDrain (base + (flatData good).length) more).2) := by
  intro good
  induction good with
  | nil =>
    intro base more _
    simp [flatData_nil]
  | cons r rest ih =>
    intro base more hok
    rw [offsetsOk, Bool.and_eq_true, beq_iff_eq] at hok
    obtain ⟨hoff, hrest⟩ := hok
    rw [List.cons_append, recvDrain, if_neg (by rw [hoff]; exact fun hc => hc rfl)]
    show (r.data ++ (recvDrain (base + r.data.length) (rest ++ more)).1,
        (recvDrain (base + r.data.length) (rest ++ more)).2) = _
    rw [ih (base + r.data.length) more hrest]
    rw [flatData_cons]
    have harith : base + (r.data.length : Int) + ((flatData rest).length : Int) =
        base + ((r.data ++ flatData rest).length : Int) := by
      rw [List.length_append]
      push_cast
      ring
    rw [harith]
    simp [List.append_assoc]

theorem recvDrain_head_mismatch (off : Int) (r : WriteRequest) (rest : List WriteRequest)
    (h : r.writeOffset ≠ off) :
    recvDrain off (r :: rest) = ([], some (.mismatch r.writeOffset off)) := by
  simp [recvDrain, h]

/-- Outcome of byteStreamServer.Write: failure of the first Recv,
InvalidArgument for an unparsable resource name, or the Put call on the
underlying store, recorded with the instance, the digest, the size
argument, and what the store reads from the stream-backed reader. -/
inductive WriteOutcome where
  | recvFailed
  | invalidResource
  | putCall (instanceName : List Char) (d : Digest) (sizeBytes : Int)
      (streamed : List Nat × Option RecvEnd)
  deriving DecidableEq, Repr

/-- Embeds byteStreamServer.Write: receive the first request, parse its
resource name (failing with InvalidArgument when it does not parse), and
hand the underlying store a reader whose running offset starts at the
length of the first request data, which was the initial chunk. -/
def byteStreamWrite (k : Nat) : List WriteRequest → WriteOutcome
  | [] => .recvFailed
  | first :: rest =>
    match parseResourceNameWrite first.resourceName with
    | none => .invalidResource
    | some (instName, d) =>
      .putCall instName d d.sizeBytes
        (bswReadAll k ⟨(first.data.length : Int), first.data⟩ rest)

/-- Outcome of byteStreamServer.Read: Unimplemented for partial reads,
InvalidArgument for an unparsable resource name, or the Get call. -/
inductive ReadOutcome where
  | unimplementedRange
  | invalidResource
  | getCall (instanceName : List Char) (d : Digest)
  deriving DecidableEq, Repr

/-- Embeds the entry of byteStreamServer.Read: non-zero read offset or
limit is Unimplemented, then the resource name is parsed, and the
underlying Get is issued. -/
def byteStreamRead (readOffset readLimit : Int) (resourceName : List Char) : ReadOutcome :=
  if readOffset ≠ 0 ∨ readLimit ≠ 0 then .unimplementedRange
  else
    match parseResourceNameRead resourceName with
    | none => .invalidResource
    | some (instName, d) => .getCall instName d

/-- Claim C7: in a Write stream every request after the first must carry
a write offset equal to the total number of data bytes delivered by all
preceding requests; a sequence honouring that is drained whole, ending
in a clean EOF, while the first deviating request makes the reader fail
with the offset-mismatch error, which the Put call observes. -/
theorem bytestream_write_offset_C7 (k : Nat) (first r : WriteRequest)
    (good rest : List WriteRequest)
    (hgood : offsetsOk (first.data.length : Int) good = true)
    (hbad : r.writeOffset ≠ (first.data.length : Int) + ((flatData good).length : Int)) :
    bswReadAll k ⟨(first.data.length : Int), first.data⟩ (good ++ r :: rest) =
      (first.data ++ flatData good,
        some (.mismatch r.writeOffset
          ((first.data.length : Int) + ((flatData good).length : Int)))) ∧
    (∀ (all : List WriteRequest), offsetsOk (first.data.length : Int) all = true →
      bswReadAll k ⟨(first.data.length : Int), first.data⟩ all =
        (first.data ++ flatData all, some .eof)) ∧
    (∀ (instName : List Char) (d : Digest),
      parseResourceNameWrite first.resourceName = some (instName, d) →
      byteStreamWrite k (first :: (good ++ r :: rest)) =
        .putCall instName d d.sizeBytes
          (first.data ++ flatData good,
            some (.mismatch r.writeOffset
              ((first.data.length : Int) + ((flatData good).length : Int))))) := by
  have hdrain : recvDrain ((first.data.length : Int)) (good ++ r :: rest) =
      (flatData good,
        some (.mismatch r.writeOffset
          ((first.data.length : Int) + ((flatData good).length : Int)))) := by
    rw [recvDrain_ok good (first.data.length : Int) (r :: rest) hgood]
    rw [recvDrain_head_mismatch _ _ _ hbad]
    simp
  have hmain : bswReadAll k ⟨(first.data.length : Int), first.data⟩ (good ++ r :: rest) =
      (first.data ++ flatData good,
        some (.mismatch r.writeOffset
          ((first.data.length : Int) + ((flatData good).length : Int)))) := by
    rw [bswReadAll_eq, hdrain]
  refine ⟨hmain, ?_, ?_⟩
  · intro all hall
    rw [bswReadAll_eq]
    rw [show recvDrain ((first.data.length : Int)) all =
        (flatData all, some .eof) from by
      have := recvDrain_ok all (first.data.length : Int) [] hall
      rw [List.append_nil] at this
      rw [this]
      simp [recvDrain]]
  · intro instName d hparse
    rw [byteStreamWrite, hparse, hmain]

theorem bytestream_write_offset_C7_witness :
    bswReadAll 0 ⟨1, [5]⟩
        [⟨[], 1, [6], false⟩, ⟨[], 5, [7], false⟩] = ([5, 6], some (.mismatch 5 2)) ∧
    byteStreamWrite 0
        [⟨"uploads/u/blobs/ab/1".data, 99, [5], false⟩,
          ⟨"junk".data, 1, [6], false⟩, ⟨[], 5, [7], false⟩] =
      .putCall [] ⟨['a', 'b'], 1⟩ 1 ([5, 6], some (.mismatch 5 2)) := by
  have h := bytestream_write_offset_C7 0 ⟨"uploads/u/blobs/ab/1".data, 99, [5], false⟩
    ⟨[], 5, [7], false⟩ [⟨"junk".data, 1, [6], false⟩] [] (by decide) (by decide)
  constructor
  · have h2 := bytestream_write_offset_C7 0 ⟨[], 7, [5], false⟩
      ⟨[], 5, [7], false⟩ [⟨[], 1, [6], false⟩] [] (by decide) (by decide)
    exact h2.1.trans (by decide)
  · exact (h.2.2 [] ⟨['a', 'b'], 1⟩ (by decide)).trans (by decide)

/-- The receive-level drain depends only on the writeOffset and data
fields of the requests. -/
theorem recvDrain_congr :
    ∀ (t1 t2 : List WriteRequest),
      List.Forall₂
        (fun a b => a.writeOffset = b.writeOffset ∧ a.data = b.data ∧
          a.finishWrite = b.finishWrite) t1 t2 →
      ∀ (off : Int), recvDrain off t1 = recvDrain off t2 := by
  intro t1 t2 h
  induction h with
  | nil => intro off; rfl
  | @cons a b l1 l2 hab htl ih =>
    intro off
    obtain ⟨ho, hd, -⟩ := hab
    rw [recvDrain, recvDrain, ho, hd]
    by_cases hoff : b.writeOffset ≠ off
    · rw [if_pos hoff, if_pos hoff]
    · rw [if_neg hoff, if_neg hoff, ih (off + b.data.length)]

/-- Claim C10: the outcome of the Write handler depends only on the
resource name and data of the first request and on the write offset,
data and finish flag of the subsequent requests; the resource name of a
request after the first is never inspected (so a non-empty value is
accepted) and the write offset of the first request is never compared
against anything, so two streams differing only in those ignored fields
produce the same outcome. -/
theorem bytestream_write_ignored_fields_C10 (k : Nat) (f1 f2 : WriteRequest)
    (t1 t2 : List WriteRequest)
    (hres : f1.resourceName = f2.resourceName) (hdata : f1.data = f2.data)
    (_hfin : f1.finishWrite = f2.finishWrite)
    (ht : List.Forall₂
      (fun a b => a.writeOffset = b.writeOffset ∧ a.data = b.data ∧
        a.finishWrite = b.finishWrite) t1 t2) :
    byteStreamWrite k (f1 :: t1) = byteStreamWrite k (f2 :: t2) := by
  rw [byteStreamWrite, byteStreamWrite, hres]
  cases hp : parseResourceNameWrite f2.resourceName with
  | none => rfl
  | some p =>
    obtain ⟨instName, d⟩ := p
    simp only
    rw [bswReadAll_eq, bswReadAll_eq]
    simp only
    rw [hdata, recvDrain_congr t1 t2 ht ((f2.data.length : Int))]

theorem bytestream_write_ignored_fields_C10_witness :
    byteStreamWrite 0
        [⟨"uploads/u/blobs/ab/2".data, 77, [5], false⟩,
          ⟨"ignored-name".data, 1, [6], true⟩] =
      byteStreamWrite 0
        [⟨"uploads/u/blobs/ab/2".data, 0, [5], false⟩,
          ⟨[], 1, [6], true⟩] :=
  bytestream_write_ignored_fields_C10 0
    ⟨"uploads/u/blobs/ab/2".data, 77, [5], false⟩
    ⟨"uploads/u/blobs/ab/2".data, 0, [5], false⟩
    [⟨"ignored-name".data, 1, [6], true⟩] [⟨[], 1, [6], true⟩]
    rfl rfl rfl
    (List.Forall₂.cons ⟨rfl, rfl, rfl⟩ List.Forall₂.nil)

theorem parseRead_isSome_iff (s : List Char) :
    (parseResourceNameRead s).isSome = true ↔
      ((fieldsSlash s).length = 3 ∨ (fieldsSlash s).length = 4) ∧
      (fieldsSlash s).getD ((fieldsSlash s).length - 3) [] = ['b', 'l', 'o', 'b', 's'] ∧
      (parseInt64 ((fieldsSlash s).getD ((fieldsSlash s).length - 1) [])).isSome = true := by
  simp only [parseResourceNameRead]
  by_cases h1 : (fieldsSlash s).length ≠ 3 ∧ (fieldsSlash s).length ≠ 4
  · rw [if_pos h1]
    simp only [Option.isSome_none, Bool.false_eq_true, false_iff]
    rintro ⟨hor, -⟩
    rcases hor with h | h
    · exact h1.1 h
    · exact h1.2 h
  · rw [if_neg h1]
    by_cases h2 : (fieldsSlash s).getD ((fieldsSlash s).length - 3) [] ≠ ['b', 'l', 'o', 'b', 's']
    · rw [if_pos h2]
      simp only [Option.isSome_none, Bool.false_eq_true, false_iff]
      rintro ⟨-, hb, -⟩
      exact h2 hb
    · rw [if_neg h2]
      have hor : (fieldsSlash s).length = 3 ∨ (fieldsSlash s).length = 4 := by
        by_contra hc
        push_neg at hc
        exact h1 ⟨hc.1, hc.2⟩
      have hb : (fieldsSlash s).getD ((fieldsSlash s).length - 3) [] =
          ['b', 'l', 'o', 'b', 's'] := not_ne_iff.mp h2
      cases hpi : parseInt64 ((fieldsSlash s).getD ((fieldsSlash s).length - 1) []) with
      | none =>
        simp only [hpi]
        constructor
        · intro h
          exact ⟨hor, hb, h⟩
        · rintro ⟨-, -, h⟩
          exact h
      | some v =>
        simp only [hpi]
        constructor
        · intro _
          exact ⟨hor, hb, rfl⟩
        · intro _
          rfl

theorem parseWrite_isSome_iff (s : List Char) :
    (parseResourceNameWrite s).isSome = true ↔
      ((fieldsSlash s).length = 5 ∨ (fieldsSlash s).length = 6) ∧
      (fieldsSlash s).getD ((fieldsSlash s).length - 5) [] =
        ['u', 'p', 'l', 'o', 'a', 'd', 's'] ∧
      (fieldsSlash s).getD ((fieldsSlash s).length - 3) [] = ['b', 'l', 'o', 'b', 's'] ∧
      (parseInt64 ((fieldsSlash s).getD ((fieldsSlash s).length - 1) [])).isSome = true := by
  simp only [parseResourceNameWrite]
  by_cases h1 : (fieldsSlash s).length ≠ 5 ∧ (fieldsSlash s).length ≠ 6
  · rw [if_pos h1]
    simp only [Option.isSome_none, Bool.false_eq_true, false_iff]
    rintro ⟨hor, -⟩
    rcases hor with h | h
    · exact h1.1 h
    · exact h1.2 h
  · rw [if_neg h1]
    by_cases h2 : (fieldsSlash s).getD ((fieldsSlash s).length - 5) [] ≠
        ['u', 'p', 'l', 'o', 'a', 'd', 's']
    · rw [if_pos h2]
      simp only [Option.isSome_none, Bool.false_eq_true, false_iff]
      rintro ⟨-, hu, -⟩
      exact h2 hu
    · rw [if_neg h2]
      by_cases h3 : (fieldsSlash s).getD ((fieldsSlash s).length - 3) [] ≠
          ['b', 'l', 'o', 'b', 's']
      · rw [if_pos h3]
        simp only [Option.isSome_none, Bool.false_eq_true, false_iff]
        rintro ⟨-, -, hb, -⟩
        exact h3 hb
      · rw [if_neg h3]
        have hor : (fieldsSlash s).length = 5 ∨ (fieldsSlash s).length = 6 := by
          by_contra hc
          push_neg at hc
          exact h1 ⟨hc.1, hc.2⟩
        have hu : (fieldsSlash s).getD ((fieldsSlash s).length - 5) [] =
            ['u', 'p', 'l', 'o', 'a', 'd', 's'] := not_ne_iff.mp h2
        have hb : (fieldsSlash s).getD ((fieldsSlash s).length - 3) [] =
            ['b', 'l', 'o', 'b', 's'] := not_ne_iff.mp h3
        cases hpi : parseInt64 ((fieldsSlash s).getD ((fieldsSlash s).length - 1) []) with
        | none =>
          simp only [hpi]
          constructor
          · intro h
            exact ⟨hor, hu, hb, h⟩
          · rintro ⟨-, -, -, h⟩
            exact h
        | some v =>
          simp only [hpi]
          constructor
          · intro _
            exact ⟨hor, hu, hb, rfl⟩
          · intro _
            rfl

/-- Claim C6 amended: the parsers accept exactly the strings whose
non-empty slash-separated field decomposition (FieldsFunc semantics:
empty segments produced by leading, trailing or doubled slashes are
dropped) has 3 or 4 fields with blobs third from the tail (read), or 5
or 6 fields with uploads fifth and blobs third from the tail (write),
the last field parsing as a signed 64-bit decimal integer; both
documented forms are accepted with the instance, hash and size
extracted, and every rejected string makes the RPC fail with
InvalidArgument. -/
theorem resource_name_codec_C6_amended (s : List Char) :
    ((parseResourceNameRead s).isSome = true ↔
      ((fieldsSlash s).length = 3 ∨ (fieldsSlash s).length = 4) ∧
      (fieldsSlash s).getD ((fieldsSlash s).length - 3) [] = ['b', 'l', 'o', 'b', 's'] ∧
      (parseInt64 ((fieldsSlash s).getD ((fieldsSlash s).length - 1) [])).isSome = true) ∧
    ((parseResourceNameWrite s).isSome = true ↔
      ((fieldsSlash s).length = 5 ∨ (fieldsSlash s).length = 6) ∧
      (fieldsSlash s).getD ((fieldsSlash s).length - 5) [] =
        ['u', 'p', 'l', 'o', 'a', 'd', 's'] ∧
      (fieldsSlash s).getD ((fieldsSlash s).length - 3) [] = ['b', 'l', 'o', 'b', 's'] ∧
      (parseInt64 ((fieldsSlash s).getD ((fieldsSlash s).length - 1) [])).isSome = true) ∧
    (∀ (instName hash sizeStr : List Char) (size : Int),
      instName ≠ [] → instName.all (fun c => c ≠ '/') = true →
      hash ≠ [] → hash.all (fun c => c ≠ '/') = true →
      sizeStr ≠ [] → sizeStr.all (fun c => c ≠ '/') = true →
      parseInt64 sizeStr = some size →
      parseResourceNameRead
          (['b', 'l', 'o', 'b', 's'] ++ '/' :: (hash ++ '/' :: sizeStr)) =
        some ([], ⟨hash, size⟩) ∧
      parseResourceNameRead
          (instName ++ '/' :: (['b', 'l', 'o', 'b', 's'] ++ '/' :: (hash ++ '/' :: sizeStr))) =
        some (instName, ⟨hash, size⟩)) ∧
    (parseResourceNameRead s = none → byteStreamRead 0 0 s = .invalidResource) ∧
    (parseResourceNameWrite s = none →
      ∀ (k : Nat) (off : Int) (dat : List Nat) (fin : Bool) (t : List WriteRequest),
        byteStreamWrite k (⟨s, off, dat, fin⟩ :: t) = .invalidResource) := by
  refine ⟨parseRead_isSome_iff s, parseWrite_isSome_iff s, ?_, ?_, ?_⟩
  · intro instName hash sizeStr size hine hia hhne hha hsne hsa hpi
    have hblobs : (['b', 'l', 'o', 'b', 's'] : List Char) ≠ [] := by decide
    have hballs : (['b', 'l', 'o', 'b', 's'] : List Char).all (fun c => c ≠ '/') = true := by
      decide
    have hf3 : fieldsSlash (['b', 'l', 'o', 'b', 's'] ++ '/' :: (hash ++ '/' :: sizeStr)) =
        [['b', 'l', 'o', 'b', 's'], hash, sizeStr] := by
      rw [fieldsSlash_sep _ _ hblobs hballs, fieldsSlash_sep _ _ hhne hha,
        fieldsSlash_single _ hsne hsa]
    have hf4 : fieldsSlash
        (instName ++ '/' :: (['b', 'l', 'o', 'b', 's'] ++ '/' :: (hash ++ '/' :: sizeStr))) =
        [instName, ['b', 'l', 'o', 'b', 's'], hash, sizeStr] := by
      rw [fieldsSlash_sep _ _ hine hia, hf3]
    constructor
    · simp only [parseResourceNameRead, hf3]
      simp [hpi]
    · simp only [parseResourceNameRead, hf4]
      simp [hpi]
  · intro hnone
    rw [byteStreamRead, if_neg (by omega)]
    rw [hnone]
  · intro hnone k off dat fin t
    rw [byteStreamWrite]
    rw [show WriteRequest.resourceName ⟨s, off, dat, fin⟩ = s from rfl, hnone]

theorem resource_name_codec_C6_amended_witness :
    parseResourceNameRead "blobs/ab/5".data = some ([], ⟨['a', 'b'], 5⟩) ∧
    parseResourceNameRead "inst1/blobs/ab/5".data = some (['i', 'n', 's', 't', '1'], ⟨['a', 'b'], 5⟩) ∧
    byteStreamRead 0 0 "bad".data = .invalidResource ∧
    byteStreamWrite 0 [⟨"bad".data, 0, [], false⟩] = .invalidResource ∧
    (parseResourceNameRead "a//blobs//ab/5".data).isSome = true := by
  have h := resource_name_codec_C6_amended "bad".data
  have hc := h.2.2.1 "inst1".data "ab".data "5".data 5
    (by decide) (by decide) (by decide) (by decide) (by decide) (by decide) (by decide)
  refine ⟨hc.1.trans (by decide), hc.2.trans (by decide), ?_, ?_, ?_⟩
  · exact h.2.2.2.1 (by decide)
  · exact (resource_name_codec_C6_amended "bad".data).2.2.2.2 (by decide) 0 0 [] false []
  · exact (resource_name_codec_C6_amended "a//blobs//ab/5".data).1.mpr (by decide)

/-! Section: HTTP remote cache back end (pkg/blobstore/remote_blob_access.go) -/

/-- HTTP method of a request issued by remoteBlobAccess. -/
inductive HMethod where
  | get
  | put
  | head
  deriving DecidableEq, Repr

/-- An HTTP response: status code and body. -/
structure HResp where
  status : Nat
  body : List Nat
  deriving DecidableEq, Repr

/-- An error surfaced by remoteBlobAccess: either a transport error from
the HTTP client or a gRPC status error it constructs. -/
inductive RemoteErr where
  | transport (m : String)
  | grpcStatus (e : StatusError)
  deriving DecidableEq, Repr

/-- The URL built by every operation of remoteBlobAccess:
address/prefix/hash. -/
def blobURL (addr pfx hash : List Char) : List Char :=
  addr ++ '/' :: (pfx ++ '/' :: hash)

/-- Embeds convertHTTPUnexpectedStatus: an Unknown status error naming
the response status code and its status text. -/
def convertHTTPUnexpectedStatus (statusText : Nat → String) (status : Nat) : StatusError :=
  ⟨.unknown, "Unexpected status code from remote cache: " ++ toString status ++ " - " ++
    statusText status⟩

/-- What remoteBlobAccess.Get hands back: the response body as the blob
stream, or an error reader. -/
inductive GetResult where
  | body (b : List Nat)
  | errReader (e : RemoteErr)
  deriving DecidableEq, Repr

/-- Embeds remoteBlobAccess.Get over an abstract HTTP environment `env`
mapping a method and URL to a transport error or a response: issue GET
on the blob URL; 404 becomes NotFound (with the URL as message), 200
yields the body, anything else the Unknown conversion. -/
def remoteGet (statusText : Nat → String) (env : HMethod → List Char → Except String HResp)
    (addr pfx : List Char) (d : Digest) : (HMethod × List Char) × GetResult :=
  let url := blobURL addr pfx d.hash
  ((.get, url),
    match env .get url with
    | .error m => .errReader (.transport m)
    | .ok resp =>
      if resp.status = 404 then .errReader (.grpcStatus ⟨.notFound, String.mk url⟩)
      else if resp.status = 200 then .body resp.body
      else .errReader (.grpcStatus (convertHTTPUnexpectedStatus statusText resp.status)))

/-- Embeds remoteBlobAccess.Put: issue PUT on the blob URL and return
only the transport error of the Do call; the response status is never
inspected. -/
def remotePut (env : HMethod → List Char → Except String HResp)
    (addr pfx : List Char) (d : Digest) : (HMethod × List Char) × Option RemoteErr :=
  let url := blobURL addr pfx d.hash
  ((.put, url),
    match env .put url with
    | .error m => some (.transport m)
    | .ok _ => none)

/-- Embeds remoteBlobAccess.Delete: always Unimplemented. -/
def remoteDelete (_d : Digest) : Except StatusError Unit :=
  .error ⟨.unimplemented, "Bazel HTTP caching protocol does not support object deletion"⟩

/-- Embeds remoteBlobAccess.FindMissing: one HEAD per digest in order;
404 marks the digest missing, 200 present; a transport error or any
other status aborts the loop with an error. -/
def remoteFindMissing (statusText : Nat → String)
    (env : HMethod → List Char → Except String HResp) (addr pfx : List Char) :
    List Digest → List (HMethod × List Char) × Except RemoteErr (List Digest)
  | [] => ([], .ok [])
  | d :: rest =>
    let url := blobURL addr pfx d.hash
    match env .head url with
    | .error m => ([(.head, url)], .error (.transport m))
    | .ok resp =>
      if resp.status = 404 then
        let p := remoteFindMissing statusText env addr pfx rest
        ((.head, url) :: p.1,
          match p.2 with
          | .error e => .error e
          | .ok ms => .ok (d :: ms))
      else if resp.status = 200 then
        let p := remoteFindMissing statusText env addr pfx rest
        ((.head, url) :: p.1, p.2)
      else
        ([(.head, url)],
          .error (.grpcStatus (convertHTTPUnexpectedStatus statusText resp.status)))

/-- Whether the environment answers HEAD on the blob URL of a digest
with a 404 response. -/
def headIs404 (env : HMethod → List Char → Except String HResp)
    (addr pfx : List Char) (d : Digest) : Bool :=
  match env .head (blobURL addr pfx d.hash) with
  | .ok r => r.status == 404
  | .error _ => false

/-- Claim C8 counterexample: a PUT answered with HTTP 500 produces no
error at all from remoteBlobAccess.Put, rather than an Unknown error as
claimed: the Do call only fails on transport errors and the response
status code is never examined. -/
theorem remote_put_status_C8_counterexample :
    remotePut (fun _ _ => .ok ⟨500, []⟩) ['a'] ['p'] ⟨['f'], 1⟩ =
      ((.put, "a/p/f".data), none) := by
  rfl

/-- Claim C8 amended: Get issues GET on address/prefix/hash and maps 404
to NotFound, 200 to the body, and any other status to Unknown carrying
the status text; FindMissing probes existence with one HEAD per digest
under the same mapping, the missing list being exactly the 404 subset;
Delete always fails with Unimplemented; and Put issues PUT on the same
URL but surfaces only transport errors, never inspecting the response
status. -/
theorem remote_http_C8_amended (statusText : Nat → String)
    (env : HMethod → List Char → Except String HResp) (addr pfx : List Char)
    (d : Digest) (ds : List Digest) :
    (remoteGet statusText env addr pfx d).1 = (.get, blobURL addr pfx d.hash) ∧
    (∀ resp : HResp, env .get (blobURL addr pfx d.hash) = .ok resp →
      (resp.status = 404 → (remoteGet statusText env addr pfx d).2 =
        .errReader (.grpcStatus ⟨.notFound, String.mk (blobURL addr pfx d.hash)⟩)) ∧
      (resp.status = 200 → (remoteGet statusText env addr pfx d).2 = .body resp.body) ∧
      (resp.status ≠ 404 → resp.status ≠ 200 →
        (remoteGet statusText env addr pfx d).2 =
          .errReader (.grpcStatus ⟨.unknown,
            "Unexpected status code from remote cache: " ++ toString resp.status ++ " - " ++
              statusText resp.status⟩))) ∧
    remoteDelete d =
      .error ⟨.unimplemented, "Bazel HTTP caching protocol does not support object deletion"⟩ ∧
    ((∀ d2 ∈ ds, ∃ r2 : HResp, env .head (blobURL addr pfx d2.hash) = .ok r2 ∧
        (r2.status = 404 ∨ r2.status = 200)) →
      (remoteFindMissing statusText env addr pfx ds).1 =
        ds.map (fun d2 => (.head, blobURL addr pfx d2.hash)) ∧
      (remoteFindMissing statusText env addr pfx ds).2 =
        .ok (ds.filter (headIs404 env addr pfx))) ∧
    (remotePut env addr pfx d).1 = (.put, blobURL addr pfx d.hash) ∧
    (∀ m, env .put (blobURL addr pfx d.hash) = .error m →
      (remotePut env addr pfx d).2 = some (.transport m)) ∧
    (∀ r2 : HResp, env .put (blobURL addr pfx d.hash) = .ok r2 →
      (remotePut env addr pfx d).2 = none) := by
  refine ⟨rfl, ?_, rfl, ?_, rfl, ?_, ?_⟩
  · intro resp hresp
    refine ⟨?_, ?_, ?_⟩
    · intro h404
      simp only [remoteGet, hresp, h404]
      rfl
    · intro h200
      simp only [remoteGet, hresp, h200]
      simp
    · intro hn404 hn200
      simp only [remoteGet, hresp]
      rw [if_neg hn404, if_neg hn200]
      rfl
  · induction ds with
    | nil =>
      intro _
      exact ⟨rfl, rfl⟩
    | cons d2 rest ih =>
      intro hclean
      obtain ⟨r2, hr2, hstat⟩ := hclean d2 (List.mem_cons_self d2 rest)
      have hrest := ih (fun d3 h3 => hclean d3 (List.mem_cons_of_mem d2 h3))
      rcases hstat with h404 | h200
      · have h404b : headIs404 env addr pfx d2 = true := by
          rw [headIs404, hr2]
          simp [h404]
        rw [show remoteFindMissing statusText env addr pfx (d2 :: rest) =
            ((.head, blobURL addr pfx d2.hash) ::
              (remoteFindMissing statusText env addr pfx rest).1,
              match (remoteFindMissing statusText env addr pfx rest).2 with
              | .error e => .error e
              | .ok ms => .ok (d2 :: ms)) from by
          simp only [remoteFindMissing, hr2, h404]
          rfl]
        constructor
        · simp only [List.map_cons]
          rw [hrest.1]
        · rw [hrest.2, List.filter_cons, if_pos h404b]
      · have h404b : headIs404 env addr pfx d2 = false := by
          rw [headIs404, hr2]
          simp [h200]
        rw [show remoteFindMissing statusText env addr pfx (d2 :: rest) =
            ((.head, blobURL addr pfx d2.hash) ::
              (remoteFindMissing statusText env addr pfx rest).1,
              (remoteFindMissing statusText env addr pfx rest).2) from by
          simp only [remoteFindMissing, hr2, h200]
          simp]
        constructor
        · simp only [List.map_cons]
          rw [hrest.1]
        · rw [hrest.2, List.filter_cons, if_neg (by simp [h404b])]
  · intro m hm
    simp only [remotePut, hm]
  · intro r2 hr2
    simp only [remotePut, hr2]

theorem remote_http_C8_amended_witness :
    (remoteGet (fun _ => "txt") (fun _ _ => .ok ⟨404, []⟩) ['a'] ['p'] ⟨['f'], 1⟩).2 =
      .errReader (.grpcStatus ⟨.notFound, "a/p/f"⟩) ∧
    (remoteGet (fun _ => "txt") (fun _ _ => .ok ⟨503, []⟩) ['a'] ['p'] ⟨['f'], 1⟩).2 =
      .errReader (.grpcStatus ⟨.unknown,
        "Unexpected status code from remote cache: 503 - txt"⟩) ∧
    remoteDelete ⟨['f'], 1⟩ =
      .error ⟨.unimplemented,
        "Bazel HTTP caching protocol does not support object deletion"⟩ ∧
    (remoteFindMissing (fun _ => "txt")
        (fun m url => if m = HMethod.head ∧ url = "a/p/f".data then .ok ⟨404, []⟩
          else .ok ⟨200, []⟩) ['a'] ['p'] [⟨['f'], 1⟩, ⟨['g'], 1⟩]).2 =
      .ok [⟨['f'], 1⟩] ∧
    (remotePut (fun _ _ => .ok ⟨500, []⟩) ['a'] ['p'] ⟨['f'], 1⟩).2 = none := by
  have h1 := (remote_http_C8_amended (fun _ => "txt") (fun _ _ => .ok ⟨404, []⟩)
    ['a'] ['p'] ⟨['f'], 1⟩ []).2.1 ⟨404, []⟩ rfl
  have h2 := (remote_http_C8_amended (fun _ => "txt") (fun _ _ => .ok ⟨503, []⟩)
    ['a'] ['p'] ⟨['f'], 1⟩ []).2.1 ⟨503, []⟩ rfl
  have henv : ∀ d2 ∈ [(⟨['f'], 1⟩ : Digest), ⟨['g'], 1⟩],
      ∃ r2 : HResp, (fun (m : HMethod) (url : List Char) =>
        if m = HMethod.head ∧ url = "a/p/f".data then (.ok ⟨404, []⟩ : Except String HResp)
        else .ok ⟨200, []⟩) .head (blobURL ['a'] ['p'] d2.hash) = .ok r2 ∧
      (r2.status = 404 ∨ r2.status = 200) := by
    intro d2 hd2
    rcases List.mem_cons.mp hd2 with h | h
    · subst h
      exact ⟨⟨404, []⟩, by rfl, Or.inl rfl⟩
    · rcases List.mem_cons.mp h with h2 | h2
      · subst h2
        exact ⟨⟨200, []⟩, by rfl, Or.inr rfl⟩
      · cases h2
  have h4 := ((remote_http_C8_amended (fun _ => "txt")
    (fun (m : HMethod) (url : List Char) =>
      if m = HMethod.head ∧ url = "a/p/f".data then (.ok ⟨404, []⟩ : Except String HResp)
      else .ok ⟨200, []⟩) ['a'] ['p'] ⟨['f'], 1⟩
    [⟨['f'], 1⟩, ⟨['g'], 1⟩]).2.2.2.1 henv).2
  have h5 := (remote_http_C8_amended (fun _ => "txt") (fun _ _ => .ok ⟨500, []⟩)
    ['a'] ['p'] ⟨['f'], 1⟩ []).2.2.2.2.2.2 ⟨500, []⟩ rfl
  exact ⟨(h1.1 rfl).trans (by decide), (h2.2.2 (by decide) (by decide)).trans (by decide),
    (remote_http_C8_amended (fun _ => "txt") (fun _ _ => .ok ⟨404, []⟩)
      ['a'] ['p'] ⟨['f'], 1⟩ []).2.2.1, h4.trans (by rfl), h5⟩

/-! Section: Redis back end and gRPC CAS relay (redisBlobAccess.FindMissing,
contentAddressableStorageBlobAccess.FindMissing) -/

/-- Observable side effect of redisBlobAccess.FindMissing: executing the
EXISTS pipeline over the given keys. -/
inductive RedisEffect where
  | pipelineExec (keys : List (List Char))
  deriving DecidableEq, Repr

/-- The key computation loop of redisBlobAccess.FindMissing: blobKeyer
applied to every digest in order, stopping at the first error (before
the pipeline is executed). -/
def collectKeys (keyer : List Char → Digest → Except StatusError (List Char))
    (inst : List Char) : List Digest → Except StatusError (List (List Char))
  | [] => .ok []
  | d :: rest =>
    match keyer inst d with
    | .error e => .error e
    | .ok k =>
      match collectKeys keyer inst rest with
      | .error e => .error e
      | .ok ks => .ok (k :: ks)

/-- Embeds redisBlobAccess.FindMissing: first the context error check,
then the empty-input shortcut, then key computation, one pipelined
EXISTS execution, and the selection of the digests whose key does not
exist.  The effect list records whether the pipeline was executed. -/
def redisFindMissing (ctxErr : Option StatusError)
    (keyer : List Char → Digest → Except StatusError (List Char))
    (existsKey : List Char → Bool) (pipelineErr : Option StatusError)
    (inst : List Char) (digests : List Digest) :
    List RedisEffect × Except StatusError (List Digest) :=
  match ctxErr with
  | some e => ([], .error e)
  | none =>
    if digests = [] then ([], .ok [])
    else
      match collectKeys keyer inst digests with
      | .error e => ([], .error e)
      | .ok ks =>
        match pipelineErr with
        | some e => ([.pipelineExec ks], .error e)
        | none =>
          ([.pipelineExec ks],
            .ok (((digests.zip ks).filter (fun p => !(existsKey p.2))).map Prod.fst))

/-- A util.Digest as used by the CAS relay: an instance name plus the
raw remote-execution digest. -/
structure UDigest where
  instanceName : List Char
  rawDigest : Digest
  deriving DecidableEq, Repr

/-- Observable side effect of the CAS relay FindMissing: issuing the
FindMissingBlobs RPC with the given instance and raw digests. -/
inductive CasEffect where
  | findMissingRPC (inst : List Char) (raws : List Digest)
  deriving DecidableEq, Repr

/-- The response conversion loop of the CAS relay FindMissing, with
util.NewDigest (absent from the snapshot) abstract. -/
def convertRaws (newDigest : List Char → Digest → Except StatusError UDigest)
    (inst : List Char) : List Digest → Except StatusError (List UDigest)
  | [] => .ok []
  | raw :: rest =>
    match newDigest inst raw with
    | .error e => .error e
    | .ok d =>
      match convertRaws newDigest inst rest with
      | .error e => .error e
      | .ok ds => .ok (d :: ds)

/-- Embeds contentAddressableStorageBlobAccess.FindMissing: the
empty-input shortcut, the mixed-instance check (InvalidArgument before
any RPC), then one FindMissingBlobs RPC and the conversion of the
response. -/
def casFindMissing (newDigest : List Char → Digest → Except StatusError UDigest)
    (rpc : List Char → List Digest → Except StatusError (List Digest)) :
    List UDigest → List CasEffect × Except StatusError (List UDigest)
  | [] => ([], .ok [])
  | d0 :: rest =>
    let inst := d0.instanceName
    if (d0 :: rest).all (fun d => d.instanceName == inst) then
      match rpc inst ((d0 :: rest).map (fun d => d.rawDigest)) with
      | .error e =>
        ([.findMissingRPC inst ((d0 :: rest).map (fun d => d.rawDigest))], .error e)
      | .ok raws =>
        ([.findMissingRPC inst ((d0 :: rest).map (fun d => d.rawDigest))],
          convertRaws newDigest inst raws)
    else
      ([], .error ⟨.invalidArgument, "Cannot use mixed instance names in a single request"⟩)

/-- Claim C9 counterexample: with a cancelled context the Redis store
returns the context error even for an empty digest list, because the
context check precedes the empty-input shortcut; so an empty-list
FindMissing does not return (empty, no error) on every call. -/
theorem redis_empty_ctx_C9_counterexample :
    redisFindMissing (some ⟨.canceled, "context canceled"⟩) (fun _ _ => .ok [])
        (fun _ => false) none [] [] =
      ([], .error ⟨.canceled, "context canceled"⟩) := by
  rfl

/-- Claim C9 amended: for both the Redis store and the gRPC CAS relay,
FindMissing on an empty digest list performs no backend interaction (no
pipeline execution, no RPC); the relay always returns an empty missing
list and no error, and the Redis store does so whenever the context is
live, returning the context error (still without touching Redis) when
the context is cancelled. -/
theorem empty_findmissing_C9_amended (ctxErr : Option StatusError)
    (keyer : List Char → Digest → Except StatusError (List Char))
    (existsKey : List Char → Bool) (pipelineErr : Option StatusError) (inst : List Char)
    (newDigest : List Char → Digest → Except StatusError UDigest)
    (rpc : List Char → List Digest → Except StatusError (List Digest)) :
    (ctxErr = none →
      redisFindMissing ctxErr keyer existsKey pipelineErr inst [] = ([], .ok [])) ∧
    (∀ e, ctxErr = some e →
      redisFindMissing ctxErr keyer existsKey pipelineErr inst [] = ([], .error e)) ∧
    casFindMissing newDigest rpc [] = ([], .ok []) := by
  refine ⟨?_, ?_, rfl⟩
  · intro h
    rw [h]
    rfl
  · intro e h
    rw [h]
    rfl

theorem empty_findmissing_C9_amended_witness :
    redisFindMissing none (fun _ _ => .ok []) (fun _ => false) none [] [] = ([], .ok []) ∧
    casFindMissing (fun i d => .ok ⟨i, d⟩) (fun _ _ => .ok []) [] = ([], .ok []) := by
  have h := empty_findmissing_C9_amended none (fun _ _ => .ok []) (fun _ => false) none []
    (fun i d => .ok ⟨i, d⟩) (fun _ _ => .ok [])
  exact ⟨h.1 rfl, h.2.2⟩

end BBB
